import Mathlib

/-!
Shallow embedding of the core of the AIClient2API gateway (Kiro provider),
translated from the JavaScript sources:

  * `src/common.js`            — `ProviderPoolManager` (LRU selection, health marks)
  * `src/claude/kiro-stream-parser.js` — `parseAwsEventStreamBuffer`
  * `src/claude/kiro-tool-parser.js`   — bracket tool-call recovery
  * `src/claude/kiro-request-builder.js` — `buildCodewhispererRequest`
  * `src/kiro/auth.js`         — token refresh step of `initializeAuth`

JavaScript `null`/`undefined` are modelled as `Option.none`; JavaScript
truthiness of strings is emptiness; timestamps (`Date.now()`,
`new Date().toISOString()`) are modelled as `Nat` milliseconds supplied by the
caller, since only their relative order matters to the program.
-/

namespace AIClient2API

namespace Pool

/-- One account of the provider pool, with the fields `initializeProviderStatus`
establishes on every `providerConfig` (src/common.js).  `lastUsed`,
`lastErrorTime`, `lastHealthCheckTime` hold millisecond timestamps (`none` for
JS `null`); `notSupportedModels` is `none` when the config has no such array. -/
structure Account where
  uuid : String
  isHealthy : Bool
  isDisabled : Bool
  lastUsed : Option Nat
  usageCount : Nat
  errorCount : Nat
  lastErrorTime : Option Nat
  lastErrorMessage : Option String
  lastHealthCheckTime : Option Nat
  lastHealthCheckModel : Option String
  notSupportedModels : Option (List String)
  deriving DecidableEq, Repr

/-- `ProviderPoolManager.markProviderUnhealthy` body, acting on the found
provider (src/common.js lines 831-858): increment `errorCount`, stamp
`lastErrorTime` and `lastUsed`, store a truthy `errorMessage`, and flip
`isHealthy` off once `errorCount` reaches `maxErrorCount`. -/
def markUnhealthyAcc (maxErrorCount : Nat) (errorMessage : Option String)
    (now : Nat) (a : Account) : Account :=
  let a₁ := { a with
    errorCount := a.errorCount + 1
    lastErrorTime := some now
    lastUsed := some now
    lastErrorMessage :=
      match errorMessage with
      | some s => if s.isEmpty then a.lastErrorMessage else some s
      | none => a.lastErrorMessage }
  if maxErrorCount ≤ a₁.errorCount then { a₁ with isHealthy := false } else a₁

/-- `ProviderPoolManager.markProviderHealthy` body, acting on the found
provider (src/common.js lines 866-896). -/
def markHealthyAcc (resetUsageCount : Bool) (healthCheckModel : Option String)
    (now : Nat) (a : Account) : Account :=
  let a₁ := { a with
    isHealthy := true
    errorCount := 0
    lastErrorTime := none
    lastErrorMessage := none
    lastHealthCheckTime := some now
    lastHealthCheckModel :=
      match healthCheckModel with
      | some s => if s.isEmpty then a.lastHealthCheckModel else some s
      | none => a.lastHealthCheckModel }
  if resetUsageCount then { a₁ with usageCount := 0 }
  else { a₁ with usageCount := a.usageCount + 1, lastUsed := some now }

/-- `ProviderPoolManager.resetProviderCounters` body, acting on the found
provider (src/common.js lines 902-916). -/
def resetCountersAcc (a : Account) : Account :=
  { a with errorCount := 0, usageCount := 0 }

/-- One mark operation applied to an account, with the data the corresponding
method call carries. -/
inductive MarkOp where
  | unhealthy (errorMessage : Option String) (now : Nat)
  | healthy (resetUsageCount : Bool) (healthCheckModel : Option String) (now : Nat)
  | reset
  deriving DecidableEq, Repr

def applyOp (maxErrorCount : Nat) (a : Account) : MarkOp → Account
  | .unhealthy m t => markUnhealthyAcc maxErrorCount m t a
  | .healthy r m t => markHealthyAcc r m t a
  | .reset => resetCountersAcc a

/-- Run a finite sequence of mark operations against one account. -/
def runOps (maxErrorCount : Nat) (a : Account) (ops : List MarkOp) : Account :=
  ops.foldl (applyOp maxErrorCount) a

def isHealthyOp : MarkOp → Bool
  | .healthy _ _ _ => true
  | _ => false

/-- Number of trailing operations executed since the most recent
`markProviderHealthy` (the whole history when there is none). -/
def sinceLastHealthyCount (ops : List MarkOp) : Nat :=
  ops.foldl (fun n op => if isHealthyOp op then 0 else n + 1) 0

/-- Index of the instant just after the last `markProviderHealthy`. -/
def lastHealthyCut (ops : List MarkOp) : Nat :=
  ops.length - sinceLastHealthyCount ops

/-- The spec's "errorCount has reached maxErrorCount since the last
markHealthy": at some instant at or after the last `markProviderHealthy`,
the account's `errorCount` was at least `maxErrorCount`. -/
def ReachedBudget (maxErrorCount : Nat) (a : Account) (ops : List MarkOp) : Prop :=
  ∃ k, lastHealthyCut ops ≤ k ∧ k ≤ ops.length ∧
    maxErrorCount ≤ (runOps maxErrorCount a (ops.take k)).errorCount

/-- Model-support test of `selectProvider` (src/common.js lines 736-747): a
provider with no `notSupportedModels` array supports every model, else the
requested model must not be listed. -/
def supportsModel (a : Account) (m : String) : Bool :=
  match a.notSupportedModels with
  | none => true
  | some l => !(l.contains m)

/-- Millisecond sort key used by the LRU comparator: `lastUsed` or epoch 0. -/
def lruTime (a : Account) : Nat := a.lastUsed.getD 0

/-- The sort comparator of `selectProvider` (src/common.js lines 762-768),
as the strict "sorts before" relation: earlier `lastUsed` first, ties broken
by smaller `usageCount`. -/
def lruLess (a b : Account) : Bool :=
  if lruTime a ≠ lruTime b then decide (lruTime a < lruTime b)
  else decide (a.usageCount < b.usageCount)

/-- One comparison step of taking `sort(cmp)[0]`: keep the current best unless
the next element sorts strictly before it. -/
def lruStep (best y : Nat × Account) : Nat × Account :=
  if lruLess y.2 best.2 then y else best

/-- `sort(cmp)[0]` of a stable sort with the `lruLess` comparator: the first
element that is minimal under the comparator's total preorder, computed as a
fold that replaces the best candidate only on a strictly smaller element. -/
def selectFirstMin : List (Nat × Account) → Option (Nat × Account)
  | [] => none
  | x :: xs => some (xs.foldl lruStep x)

/-- The non-strict total preorder underlying the LRU comparator. -/
def lruKeyLe (a b : Account) : Prop :=
  lruTime a < lruTime b ∨ (lruTime a = lruTime b ∧ a.usageCount ≤ b.usageCount)

/-- The in-place update `selected.config.lastUsed = new Date().toISOString();
selected.config.usageCount++` of `selectProvider`. -/
def touchAcc (now : Nat) (a : Account) : Account :=
  { a with lastUsed := some now, usageCount := a.usageCount + 1 }

/-- `ProviderPoolManager.selectProvider` (src/common.js lines 729-782) over a
pool listed in order, returning the selected account (after its usage-count
update) together with the updated pool.  Indices enter through `List.enum` so
that the mutation lands on the object the JS code mutates by reference. -/
def selectProvider (ps : List Account) (requestedModel : Option String)
    (skipUsageCount : Bool) (now : Nat) : Option Account × List Account :=
  let avail := ps.enum.filter fun p => p.2.isHealthy && !p.2.isDisabled
  let filtered : Option (List (Nat × Account)) :=
    match requestedModel with
    | none => some avail
    | some m =>
      let mf := avail.filter fun p => supportsModel p.2 m
      if mf.isEmpty then none else some mf
  match filtered with
  | none => (none, ps)
  | some l =>
    match selectFirstMin l with
    | none => (none, ps)
    | some (i, sel) =>
      if skipUsageCount then (some sel, ps)
      else (some (touchAcc now sel), ps.set i (touchAcc now sel))

/-- Eligibility filter of `selectProvider`: healthy, enabled, and supporting
the requested model when one is given. -/
def eligibleAcc (requestedModel : Option String) (a : Account) : Bool :=
  a.isHealthy && !a.isDisabled &&
    (match requestedModel with
     | none => true
     | some m => supportsModel a m)

/-- The indexed account list that survives both filters of `selectProvider`. -/
def eligList (ps : List Account) (requestedModel : Option String) : List (Nat × Account) :=
  ps.enum.filter fun p => eligibleAcc requestedModel p.2

/-- Replace the first element satisfying `pred` — the effect of mutating the
object returned by `Array.prototype.find`. -/
def updateFirst (pred : Account → Bool) (f : Account → Account) : List Account → List Account
  | [] => []
  | a :: rest => if pred a then f a :: rest else a :: updateFirst pred f rest

/-- `ProviderPoolManager.markProviderUnhealthy` at pool level, including the
`!providerConfig?.uuid` early return (JS: a missing or empty `uuid` is falsy)
and the `_findProvider` lookup that targets the first matching account. -/
def markProviderUnhealthy (maxErrorCount : Nat) (cfgUuid : Option String)
    (errorMessage : Option String) (now : Nat) (ps : List Account) : List Account :=
  match cfgUuid with
  | none => ps
  | some u =>
    if u.isEmpty then ps
    else updateFirst (fun p => p.uuid == u) (markUnhealthyAcc maxErrorCount errorMessage now) ps

/-- `ProviderPoolManager.markProviderHealthy` at pool level. -/
def markProviderHealthy (cfgUuid : Option String) (resetUsageCount : Bool)
    (healthCheckModel : Option String) (now : Nat) (ps : List Account) : List Account :=
  match cfgUuid with
  | none => ps
  | some u =>
    if u.isEmpty then ps
    else updateFirst (fun p => p.uuid == u) (markHealthyAcc resetUsageCount healthCheckModel now) ps

/-- `ProviderPoolManager.resetProviderCounters` at pool level. -/
def resetProviderCounters (cfgUuid : Option String) (ps : List Account) : List Account :=
  match cfgUuid with
  | none => ps
  | some u =>
    if u.isEmpty then ps
    else updateFirst (fun p => p.uuid == u) resetCountersAcc ps

/-- A fresh account as `initializeProviderStatus` defaults it. -/
def freshAccount (uuid : String) : Account :=
  { uuid := uuid
    isHealthy := true
    isDisabled := false
    lastUsed := none
    usageCount := 0
    errorCount := 0
    lastErrorTime := none
    lastErrorMessage := none
    lastHealthCheckTime := none
    lastHealthCheckModel := none
    notSupportedModels := none }

/-- Concrete account used to evaluate the pool theorems. -/
def poolA : Account := { freshAccount "A" with lastUsed := some 50, usageCount := 2 }

/-- Concrete account that does not support model `m1`. -/
def poolB : Account := { freshAccount "B" with notSupportedModels := some ["m1"] }

/-- Concrete two-account pool. -/
def demoPool : List Account := [poolA, poolB]

/-- Concrete mark sequence: three failures in a row. -/
def demoMarkOps : List MarkOp :=
  [.unhealthy (some "boom") 1, .unhealthy none 2, .unhealthy none 3]

end Pool

end AIClient2API

namespace AIClient2API

namespace Json

/-- JSON values as `JSON.parse` produces them.  Objects keep insertion order;
a duplicate key keeps its first position but the last value (JS object
semantics).  Numbers are kept exactly as `mant * 10 ^ exp10` (no float
rounding), which preserves JS truthiness (zero iff `mant = 0`) and
definedness; claims never compare parsed numbers. -/
inductive JValue where
  | null
  | bool (b : Bool)
  | num (mant : Int) (exp10 : Int)
  | str (s : String)
  | arr (elems : List JValue)
  | obj (members : List (String × JValue))

/-- JS truthiness of a JSON value: `null`, `false`, `0` and `""` are falsy,
every array or object is truthy. -/
def jsTruthy : JValue → Bool
  | .null => false
  | .bool b => b
  | .num m _ => m ≠ 0
  | .str s => !s.isEmpty
  | .arr _ => true
  | .obj _ => true

/-- Property access `value.field`: defined only on objects, `undefined`
(`none`) otherwise. -/
def objGet : JValue → String → Option JValue
  | .obj kvs, k => kvs.lookup k
  | _, _ => none

/-- Truthiness of a possibly-`undefined` value (`undefined` is falsy). -/
def optTruthy : Option JValue → Bool
  | none => false
  | some v => jsTruthy v

/-- JS `a || b` on a possibly-`undefined` left operand. -/
def jsOr (v : Option JValue) (d : JValue) : JValue :=
  match v with
  | some x => if jsTruthy x then x else d
  | none => d

/-- Insert into an object under construction: an existing key keeps its
position and takes the new value, a new key is appended. -/
def objInsert : List (String × JValue) → String → JValue → List (String × JValue)
  | [], k, v => [(k, v)]
  | (k0, v0) :: rest, k, v =>
    if k0 = k then (k0, v) :: rest else (k0, v0) :: objInsert rest k v

/-- JSON whitespace. -/
def jsonWs (c : Char) : Bool :=
  c = ' ' || c = '\t' || c = '\n' || c = '\r'

def skipWs : List Char → List Char
  | [] => []
  | c :: rest => if jsonWs c then skipWs rest else c :: rest

def hexVal (c : Char) : Option Nat :=
  if '0' ≤ c ∧ c ≤ '9' then some (c.toNat - '0'.toNat)
  else if 'a' ≤ c ∧ c ≤ 'f' then some (c.toNat - 'a'.toNat + 10)
  else if 'A' ≤ c ∧ c ≤ 'F' then some (c.toNat - 'A'.toNat + 10)
  else none

/-- Single-character string escapes of JSON. -/
def escChar (c : Char) : Option Char :=
  if c = '"' then some '"'
  else if c = '\\' then some '\\'
  else if c = '/' then some '/'
  else if c = 'b' then some (Char.ofNat 8)
  else if c = 'f' then some (Char.ofNat 12)
  else if c = 'n' then some '\n'
  else if c = 'r' then some '\r'
  else if c = 't' then some '\t'
  else none

def isDigitChar (c : Char) : Bool := '0' ≤ c && c ≤ '9'

def digitsToNat (ds : List Char) : Nat :=
  ds.foldl (fun n c => n * 10 + (c.toNat - '0'.toNat)) 0

/-- Maximal leading digit run. -/
def takeDigits : List Char → List Char × List Char
  | [] => ([], [])
  | c :: rest =>
    if isDigitChar c then
      let (ds, r) := takeDigits rest
      (c :: ds, r)
    else ([], c :: rest)

/-- Exponent digits of a JSON number. -/
def parseJNumExpDigits (mant : Int) (exp0 : Int) (esign : Bool) (r : List Char) :
    Option (JValue × List Char) :=
  let (expDs, r5) := takeDigits r
  if expDs.isEmpty then none
  else
    let e0 : Int := (digitsToNat expDs : Int)
    some (.num mant (exp0 + (if esign then -e0 else e0)), r5)

/-- Optional exponent part of a JSON number. -/
def parseJNumTail (mant : Int) (exp0 : Int) (cs : List Char) : Option (JValue × List Char) :=
  match cs with
  | e :: r3 =>
    if e = 'e' ∨ e = 'E' then
      match r3 with
      | '+' :: r => parseJNumExpDigits mant exp0 false r
      | '-' :: r => parseJNumExpDigits mant exp0 true r
      | _ => parseJNumExpDigits mant exp0 false r3
    else some (.num mant exp0, cs)
  | [] => some (.num mant exp0, [])

/-- JSON number (after an optional leading minus has been noted): grammar
`int frac? exp?` with `int = 0 | [1-9][0-9]*`.  Returns `(mant, exp10)`. -/
def parseJNumBody (neg : Bool) (cs : List Char) : Option (JValue × List Char) :=
  match cs with
  | [] => none
  | c :: rest =>
    if ¬ isDigitChar c then none
    else
      let (intDs, r1) := if c = '0' then (['0'], rest) else takeDigits (c :: rest)
      match r1 with
      | '.' :: r =>
        let (fracDs, r2) := takeDigits r
        if fracDs.isEmpty then none
        else
          let mantNat := digitsToNat (intDs ++ fracDs)
          parseJNumTail (if neg then -(mantNat : Int) else (mantNat : Int))
            (-(fracDs.length : Int)) r2
      | _ =>
        let mantNat := digitsToNat intDs
        parseJNumTail (if neg then -(mantNat : Int) else (mantNat : Int)) 0 r1

mutual

/-- One JSON value at the head of the input (no leading whitespace).
Fuel-bounded recursive-descent rendering of the `JSON.parse` grammar. -/
def parseJValue : Nat → List Char → Option (JValue × List Char)
  | 0, _ => none
  | fuel + 1, cs =>
    match cs with
    | [] => none
    | c :: rest =>
      if c = '\x7b' then
        match skipWs rest with
        | c2 :: rest2 =>
          if c2 = '\x7d' then some (.obj [], rest2)
          else
            match parseJMembers fuel (c2 :: rest2) [] with
            | some (kvs, r) => some (.obj kvs, r)
            | none => none
        | [] => none
      else if c = '[' then
        match skipWs rest with
        | c2 :: rest2 =>
          if c2 = ']' then some (.arr [], rest2)
          else
            match parseJElems fuel (c2 :: rest2) [] with
            | some (vs, r) => some (.arr vs, r)
            | none => none
        | [] => none
      else if c = '"' then
        match parseJStr fuel rest with
        | some (content, r) => some (.str (String.mk content), r)
        | none => none
      else if c = 't' then
        match rest with
        | 'r' :: 'u' :: 'e' :: r => some (.bool true, r)
        | _ => none
      else if c = 'f' then
        match rest with
        | 'a' :: 'l' :: 's' :: 'e' :: r => some (.bool false, r)
        | _ => none
      else if c = 'n' then
        match rest with
        | 'u' :: 'l' :: 'l' :: r => some (.null, r)
        | _ => none
      else if c = '-' then parseJNumBody true rest
      else if isDigitChar c then parseJNumBody false (c :: rest)
      else none

/-- String body after the opening quote; rejects raw control characters as
`JSON.parse` does.  A `\uXXXX` escape becomes `Char.ofNat` of its value
(an invalid scalar value degrades to NUL; the program never feeds lone
surrogates to the paths under proof). -/
def parseJStr : Nat → List Char → Option (List Char × List Char)
  | 0, _ => none
  | fuel + 1, cs =>
    match cs with
    | [] => none
    | c :: rest =>
      if c = '"' then some ([], rest)
      else if c = '\\' then
        match rest with
        | [] => none
        | e :: r2 =>
          if e = 'u' then
            match r2 with
            | h1 :: h2 :: h3 :: h4 :: r3 =>
              match hexVal h1, hexVal h2, hexVal h3, hexVal h4 with
              | some a, some b, some c3, some d =>
                match parseJStr fuel r3 with
                | some (s, r) => some (Char.ofNat (((a * 16 + b) * 16 + c3) * 16 + d) :: s, r)
                | none => none
              | _, _, _, _ => none
            | _ => none
          else
            match escChar e with
            | some ch =>
              match parseJStr fuel r2 with
              | some (s, r) => some (ch :: s, r)
              | none => none
            | none => none
      else if c.toNat < 32 then none
      else
        match parseJStr fuel rest with
        | some (s, r) => some (c :: s, r)
        | none => none

/-- Object members, positioned at the start of a member (key quote). -/
def parseJMembers : Nat → List Char → List (String × JValue) →
    Option (List (String × JValue) × List Char)
  | 0, _, _ => none
  | fuel + 1, cs, acc =>
    match skipWs cs with
    | [] => none
    | c :: rest =>
      if c = '"' then
        match parseJStr fuel rest with
        | some (key, r1) =>
          match skipWs r1 with
          | ':' :: r2 =>
            match parseJValue fuel (skipWs r2) with
            | some (v, r3) =>
              let acc := objInsert acc (String.mk key) v
              match skipWs r3 with
              | ',' :: r4 => parseJMembers fuel r4 acc
              | c5 :: r5 => if c5 = '\x7d' then some (acc, r5) else none
              | [] => none
            | none => none
          | _ => none
        | none => none
      else none

/-- Array elements, positioned at the start of an element. -/
def parseJElems : Nat → List Char → List JValue → Option (List JValue × List Char)
  | 0, _, _ => none
  | fuel + 1, cs, acc =>
    match parseJValue fuel (skipWs cs) with
    | some (v, r1) =>
      match skipWs r1 with
      | ',' :: r2 => parseJElems fuel r2 (acc ++ [v])
      | c3 :: r3 => if c3 = ']' then some (acc ++ [v], r3) else none
      | [] => none
    | none => none

end

/-- `JSON.parse`: one value, with surrounding whitespace, nothing trailing. -/
def jsonParse (cs : List Char) : Option JValue :=
  match parseJValue (cs.length + 1) (skipWs cs) with
  | some (v, rest) => if (skipWs rest).isEmpty then some v else none
  | none => none

def jsonParseStr (s : String) : Option JValue := jsonParse s.toList

/-- `JSON.stringify` escaping of one string character. -/
def escapeJsonChar (c : Char) : List Char :=
  if c = '"' then ['\\', '"']
  else if c = '\\' then ['\\', '\\']
  else if c = '\n' then ['\\', 'n']
  else if c = '\r' then ['\\', 'r']
  else if c = '\t' then ['\\', 't']
  else if c = Char.ofNat 8 then ['\\', 'b']
  else if c = Char.ofNat 12 then ['\\', 'f']
  else if c.toNat < 32 then
    let d1 := c.toNat / 16
    let d2 := c.toNat % 16
    ['\\', 'u', '0', '0',
      (if d1 < 10 then Char.ofNat ('0'.toNat + d1) else Char.ofNat ('a'.toNat + d1 - 10)),
      (if d2 < 10 then Char.ofNat ('0'.toNat + d2) else Char.ofNat ('a'.toNat + d2 - 10))]
  else [c]

def quoteJString (s : String) : String :=
  "\"" ++ String.mk (s.toList.foldr (fun c acc => escapeJsonChar c ++ acc) []) ++ "\""

mutual

/-- `JSON.stringify` (compact form).  Numbers print as `mant` or `mantEexp`;
the claims under proof never stringify numbers, so exact float64 formatting is
out of scope. -/
def jsonStringify : JValue → String
  | .null => "null"
  | .bool true => "true"
  | .bool false => "false"
  | .num m e => if e = 0 then toString m else toString m ++ "e" ++ toString e
  | .str s => quoteJString s
  | .arr xs => "[" ++ String.intercalate "," (stringifyElems xs) ++ "]"
  | .obj kvs => "\x7b" ++ String.intercalate "," (stringifyMembers kvs) ++ "\x7d"

def stringifyElems : List JValue → List String
  | [] => []
  | v :: rest => jsonStringify v :: stringifyElems rest

def stringifyMembers : List (String × JValue) → List String
  | [] => []
  | (k, v) :: rest => (quoteJString k ++ ":" ++ jsonStringify v) :: stringifyMembers rest

end

end Json

end AIClient2API

namespace AIClient2API

namespace Kiro

open AIClient2API.Json

/-- The typed events `parseAwsEventStreamBuffer` pushes
(src/claude/kiro-stream-parser.js lines 80-114), with the JS defaults
`input: parsed.input || ''` and `stop: parsed.stop || false` applied on the
`toolUse` start event. -/
inductive KiroEvent where
  | content (data : JValue)
  | toolUse (name toolUseId input stop : JValue)
  | toolUseInput (input : JValue)
  | toolUseStop (stop : JValue)

/-- Discriminator of the four event shapes (the `type` tag strings
`content`, `toolUse`, `toolUseInput`, `toolUseStop`). -/
def eventKind : KiroEvent → Nat
  | .content _ => 0
  | .toolUse _ _ _ _ => 1
  | .toolUseInput _ => 2
  | .toolUseStop _ => 3

/-- The event-classification chain run on each successfully parsed JSON object
(src/claude/kiro-stream-parser.js lines 78-114): `content` when a `content`
field exists and `followupPrompt` is absent or falsy; else `toolUse` when
`name` and `toolUseId` are truthy; else `toolUseInput` when an `input` field
exists and `name` is absent or falsy; else `toolUseStop` when a `stop` field
exists; else nothing. -/
def classifyKiroEvent (p : JValue) : Option KiroEvent :=
  let content := objGet p "content"
  let name := objGet p "name"
  let toolUseId := objGet p "toolUseId"
  let input := objGet p "input"
  let stop := objGet p "stop"
  let followup := objGet p "followupPrompt"
  if content.isSome && !(optTruthy followup) then
    content.map fun c => .content c
  else if optTruthy name && optTruthy toolUseId then
    match name, toolUseId with
    | some n, some tid => some (.toolUse n tid (jsOr input (.str "")) (jsOr stop (.bool false)))
    | _, _ => none
  else if input.isSome && !(optTruthy name) then
    input.map fun v => .toolUseInput v
  else if stop.isSome then
    stop.map fun v => .toolUseStop v
  else none

/-- `String.prototype.indexOf(needle, i)` over a character list: the least
position `≥ start` where `needle` occurs, else `none` (JS `-1`). -/
def indexOfAux (needle : List Char) : List Char → Nat → Option Nat
  | [], i => if needle.isEmpty then some i else none
  | c :: rest, i =>
    if needle.isPrefixOf (c :: rest) then some i
    else indexOfAux needle rest (i + 1)

def indexOfFrom (hay needle : List Char) (start : Nat) : Option Nat :=
  indexOfAux needle (hay.drop start) start

/-- The brace-counted span scan of `parseAwsEventStreamBuffer`
(src/claude/kiro-stream-parser.js lines 33-68): from the opening brace,
tracking backslash escapes everywhere and an in-string flag toggled by
unescaped quotes; returns the absolute index of the closing brace, or `none`
when the buffer ends first. -/
def scanBraces : List Char → Nat → Nat → Bool → Bool → Option Nat
  | [], _, _, _, _ => none
  | c :: rest, i, depth, inStr, esc =>
    if esc then scanBraces rest (i + 1) depth inStr false
    else if c = '\\' then scanBraces rest (i + 1) depth inStr true
    else if c = '"' then scanBraces rest (i + 1) depth (!inStr) esc
    else if !inStr && c = '\x7b' then scanBraces rest (i + 1) (depth + 1) inStr esc
    else if !inStr && c = '\x7d' then
      if depth = 1 then some i else scanBraces rest (i + 1) (depth - 1) inStr esc
    else scanBraces rest (i + 1) depth inStr esc

/-- The five payload signatures searched for by the stream parser. -/
def sigStrings : List String :=
  ["\x7b\"content\":", "\x7b\"name\":", "\x7b\"followupPrompt\":", "\x7b\"input\":", "\x7b\"stop\":"]

/-- The earliest signature occurrence at or after `searchStart`
(`Math.min` over the found candidates). -/
def minSigIndex (remaining : List Char) (searchStart : Nat) : Option Nat :=
  (sigStrings.filterMap fun sig => indexOfFrom remaining sig.toList searchStart).foldl
    (fun acc i =>
      match acc with
      | none => some i
      | some j => some (min i j))
    none

/-- The `while (true)` loop of `parseAwsEventStreamBuffer`
(src/claude/kiro-stream-parser.js lines 18-124), fuel-bounded; `searchStart`
strictly increases each kept iteration, so `buffer.length + 1` fuel always
suffices.  Returns `(events, remaining, searchStart)` at loop exit. -/
def parseAwsLoop : Nat → List Char → Nat → List KiroEvent →
    List KiroEvent × List Char × Nat
  | 0, remaining, searchStart, events => (events, remaining, searchStart)
  | fuel + 1, remaining, searchStart, events =>
    match minSigIndex remaining searchStart with
    | none => (events, remaining, searchStart)
    | some jsonStart =>
      match scanBraces (remaining.drop jsonStart) jsonStart 0 false false with
      | none => (events, remaining.drop jsonStart, searchStart)
      | some jsonEnd =>
        let jsonStr := (remaining.take (jsonEnd + 1)).drop jsonStart
        let events :=
          match jsonParse jsonStr with
          | some parsed =>
            match classifyKiroEvent parsed with
            | some e => events ++ [e]
            | none => events
          | none => events
        if jsonEnd + 1 ≥ remaining.length then (events, [], jsonEnd + 1)
        else parseAwsLoop fuel remaining (jsonEnd + 1) events

/-- `parseAwsEventStreamBuffer` (src/claude/kiro-stream-parser.js lines
13-132): run the scan loop, then apply the post-loop truncation
`if (searchStart > 0 && remaining.length > 0) remaining =
remaining.substring(searchStart)` — including on the buffer that the
incomplete-JSON branch already cut down to `substring(jsonStart)`. -/
def parseAwsEventStreamBuffer (buffer : List Char) : List KiroEvent × List Char :=
  let out := parseAwsLoop (buffer.length + 1) buffer 0 []
  if out.2.2 > 0 ∧ out.2.1.length > 0 then (out.1, out.2.1.drop out.2.2)
  else (out.1, out.2.1)

/-- Convenience wrapper over strings. -/
def parseAwsBufferStr (s : String) : List KiroEvent × String :=
  let out := parseAwsEventStreamBuffer s.toList
  (out.1, String.mk out.2)

end Kiro

end AIClient2API

namespace AIClient2API

namespace Tool

open AIClient2API.Json
open AIClient2API.Kiro (indexOfFrom)

/-- The synthesized tool call `{id, type:"function", function:{name, arguments}}`. -/
structure ToolFn where
  name : String
  arguments : String

structure ToolCall where
  id : String
  type : String
  function : ToolFn

/-- JS `\w` character class. -/
def isWordChar (c : Char) : Bool :=
  ('a' ≤ c && c ≤ 'z') || ('A' ≤ c && c ≤ 'Z') || ('0' ≤ c && c ≤ '9') || c = '_'

/-- JS `\s` character class (the ASCII part; the program's inputs stay ASCII). -/
def isSpaceChar (c : Char) : Bool :=
  c = ' ' || c = '\t' || c = '\n' || c = '\r' || c = '\x0b' || c = '\x0c'

/-- Maximal leading run satisfying `pred`. -/
def spanBy (pred : Char → Bool) : List Char → List Char × List Char
  | [] => ([], [])
  | c :: rest =>
    if pred c then
      let (run, r) := spanBy pred rest
      (c :: run, r)
    else ([], c :: rest)

/-- `String.prototype.trim()` (ASCII whitespace). -/
def trimChars (cs : List Char) : List Char :=
  ((spanBy isSpaceChar ((spanBy isSpaceChar cs).2.reverse)).2).reverse

def lowerChars (cs : List Char) : List Char := cs.map Char.toLower

/-- Case-insensitive literal match, returning the rest on success. -/
def matchLitCI : List Char → List Char → Option (List Char)
  | [], cs => some cs
  | _ :: _, [] => none
  | l :: ls, c :: cs => if c.toLower = l.toLower then matchLitCI ls cs else none

/-- The pattern `/\[Called\s+(\w+)\s+with\s+args:/i` tested at one position,
returning the captured word.  Because `\w`, `\s` and the literal characters at
each junction are pairwise disjoint, the backtracking regex accepts exactly
when this maximal-munch matcher does, with the same capture. -/
def matchNameAt (cs : List Char) : Option (List Char) :=
  match matchLitCI "[Called".toList cs with
  | none => none
  | some r1 =>
    let (sp1, r2) := spanBy isSpaceChar r1
    if sp1.isEmpty then none
    else
      let (word, r3) := spanBy isWordChar r2
      if word.isEmpty then none
      else
        let (sp2, r4) := spanBy isSpaceChar r3
        if sp2.isEmpty then none
        else
          match matchLitCI "with".toList r4 with
          | none => none
          | some r5 =>
            let (sp3, r6) := spanBy isSpaceChar r5
            if sp3.isEmpty then none
            else
              match matchLitCI "args:".toList r6 with
              | none => none
              | some _ => some word

/-- `toolCallText.match(namePattern)`: the capture of the leftmost match. -/
def regexFindName : List Char → Option (List Char)
  | [] => none
  | c :: rest =>
    match matchNameAt (c :: rest) with
    | some w => some w
    | none => regexFindName rest

/-- `String.prototype.lastIndexOf` of one character. -/
def lastIndexOf (cs : List Char) (target : Char) : Option Nat :=
  (cs.foldl (fun (st : Nat × Option Nat) c =>
      (st.1 + 1, if c = target then some st.1 else st.2))
    (0, none)).2

/-- `findMatchingBracket` (src/claude/kiro-tool-parser.js lines 16-55),
specialized as called: `openChar = '['`, `closeChar = ']'`.  Unlike the stream
parser's brace scan, a backslash only escapes inside a string. -/
def findBracketAux : List Char → Nat → Nat → Bool → Bool → Option Nat
  | [], _, _, _, _ => none
  | c :: rest, i, count, inStr, esc =>
    if esc then findBracketAux rest (i + 1) count inStr false
    else if c = '\\' && inStr then findBracketAux rest (i + 1) count inStr true
    else if c = '"' then findBracketAux rest (i + 1) count (!inStr) esc
    else if !inStr && c = '[' then findBracketAux rest (i + 1) (count + 1) inStr esc
    else if !inStr && c = ']' then
      if count = 1 then some i else findBracketAux rest (i + 1) (count - 1) inStr esc
    else findBracketAux rest (i + 1) count inStr esc

def findMatchingBracket (text : List Char) (startPos : Nat) : Option Nat :=
  match text.drop startPos with
  | [] => none
  | c :: rest => if c = '[' then findBracketAux rest (startPos + 1) 1 false false else none

/-- Repair pass 1: `replace(/,\s*([}\]])/g, '$1')` — drop a comma directly
(modulo whitespace) before a closing brace or bracket.  On a match the scan
resumes after it; otherwise it advances one character. -/
def repair1 : Nat → List Char → List Char
  | 0, cs => cs
  | fuel + 1, cs =>
    match cs with
    | [] => []
    | c :: rest =>
      if c = ',' then
        let (_, r1) := spanBy isSpaceChar rest
        match r1 with
        | b :: r2 =>
          if b = '\x7d' ∨ b = ']' then b :: repair1 fuel r2
          else c :: repair1 fuel rest
        | [] => c :: repair1 fuel rest
      else c :: repair1 fuel rest

/-- Repair pass 2: `replace(/([{,]\s*)([a-zA-Z0-9_]+?)\s*:/g, '$1"$2":')` —
quote an unquoted key.  The lazy group can only succeed on the maximal word
run (word characters cannot match `\s*:`), so the matcher is deterministic. -/
def repair2 : Nat → List Char → List Char
  | 0, cs => cs
  | fuel + 1, cs =>
    match cs with
    | [] => []
    | c :: rest =>
      if c = '\x7b' ∨ c = ',' then
        let (sp, r1) := spanBy isSpaceChar rest
        let (word, r2) := spanBy isWordChar r1
        if word.isEmpty then c :: repair2 fuel rest
        else
          let (_, r3) := spanBy isSpaceChar r2
          match r3 with
          | ':' :: r4 => (c :: sp) ++ ('"' :: word) ++ ('"' :: ':' :: repair2 fuel r4)
          | _ => c :: repair2 fuel rest
      else c :: repair2 fuel rest

/-- Repair pass 3: `replace(/:\s*([a-zA-Z0-9_]+)(?=[,\}\]])/g, ':"$1"')` —
quote a bareword value (the lookahead is not consumed). -/
def repair3 : Nat → List Char → List Char
  | 0, cs => cs
  | fuel + 1, cs =>
    match cs with
    | [] => []
    | c :: rest =>
      if c = ':' then
        let (_, r1) := spanBy isSpaceChar rest
        let (word, r2) := spanBy isWordChar r1
        if word.isEmpty then c :: repair3 fuel rest
        else
          match r2 with
          | b :: _ =>
            if b = ',' ∨ b = '\x7d' ∨ b = ']' then
              (':' :: '"' :: word) ++ ('"' :: repair3 fuel r2)
            else c :: repair3 fuel rest
          | [] => c :: repair3 fuel rest
      else c :: repair3 fuel rest

/-- `repairJson` (src/claude/kiro-tool-parser.js lines 62-71). -/
def repairJson (cs : List Char) : List Char :=
  let s1 := repair1 cs.length cs
  let s2 := repair2 s1.length s1
  repair3 s2.length s2

/-- `parseSingleToolCall` (src/claude/kiro-tool-parser.js lines 78-124).
`freshId` stands for the `uuidv4()`-derived suffix of the call id. -/
def parseSingleToolCall (freshId : String) (toolCallText : List Char) : Option ToolCall :=
  match regexFindName toolCallText with
  | none => none
  | some nameChars =>
    let functionName := String.mk (trimChars nameChars)
    match indexOfFrom (lowerChars toolCallText) (lowerChars "with args:".toList) 0 with
    | none => none
    | some argsStartPos =>
      let argsStart := argsStartPos + 10
      match lastIndexOf toolCallText ']' with
      | none => none
      | some argsEnd =>
        if argsEnd ≤ argsStart then none
        else
          let jsonCandidate := trimChars ((toolCallText.take argsEnd).drop argsStart)
          match jsonParse (repairJson jsonCandidate) with
          | none => none
          | some args =>
            match args with
            | .obj _ =>
              some ⟨"call_" ++ freshId, "function", ⟨functionName, jsonStringify args⟩⟩
            | .arr _ =>
              some ⟨"call_" ++ freshId, "function", ⟨functionName, jsonStringify args⟩⟩
            | _ => none

/-- The needle of the bracket scan. -/
def calledNeedle : List Char := "[Called".toList

/-- The `while (true)` loop collecting every `"[Called"` occurrence
(src/claude/kiro-tool-parser.js lines 138-146), fuel-bounded (`start`
strictly increases). -/
def collectAux (text : List Char) : Nat → Nat → List Nat
  | 0, _ => []
  | fuel + 1, start =>
    match indexOfFrom text calledNeedle start with
    | none => []
    | some pos => pos :: collectAux text fuel (pos + 1)

def callPositions (text : List Char) : List Nat :=
  collectAux text (text.length + 1) 0

/-- `endSearchLimit` of one loop iteration: the next occurrence position, or
the text length for the last occurrence. -/
def segLimit (text : List Char) (rest : List Nat) : Nat :=
  match rest with
  | q :: _ => q
  | [] => text.length

/-- One iteration body of the loop of `parseBracketToolCalls`
(src/claude/kiro-tool-parser.js lines 148-177): cut the segment, find its
closing bracket (falling back to the last `]`), and parse the tool call. -/
def processOne (text : List Char) (p lim : Nat) (freshId : String) : Option ToolCall :=
  let segment := (text.take lim).drop p
  match findMatchingBracket segment 0 with
  | some bracketEnd => parseSingleToolCall freshId (segment.take (bracketEnd + 1))
  | none =>
    match lastIndexOf segment ']' with
    | some lastB => parseSingleToolCall freshId (segment.take (lastB + 1))
    | none => none

/-- The per-position loop of `parseBracketToolCalls`.  The fresh-id counter
advances exactly on each successful parse (each `uuidv4()` consumed). -/
def processPositions (text : List Char) (ids : Nat → String) : Nat → List Nat → List ToolCall
  | _, [] => []
  | k, p :: rest =>
    match processOne text p (segLimit text rest) (ids k) with
    | some call => call :: processPositions text ids (k + 1) rest
    | none => processPositions text ids k rest

/-- `parseBracketToolCalls` (src/claude/kiro-tool-parser.js lines 131-179). -/
def parseBracketToolCalls (text : List Char) (ids : Nat → String) : Option (List ToolCall) :=
  if (indexOfFrom text calledNeedle 0).isSome then
    let calls := processPositions text ids 0 (callPositions text)
    if calls.isEmpty then none else some calls
  else none

/-- The spec scenario's embedded tool-call segment
`[Called get_time with args: {tz: UTC,}]`. -/
def segToolCall : List Char := "[Called get_time with args: \x7btz: UTC,\x7d]".toList

/-- An occurrence of the scan needle `"[Called"` at position `i`. -/
def OccursCalled (text : List Char) (i : Nat) : Prop :=
  calledNeedle.isPrefixOf (text.drop i) = true

end Tool

end AIClient2API

namespace AIClient2API

namespace Builder

open AIClient2API.Json

mutual

/-- A Claude content block as the builder inspects it. -/
inductive Block where
  | text (t : String)
  | image (mediaType : String) (data : String)
  | toolUse (id : String) (name : String) (input : JValue)
  | toolResult (toolUseId : String) (content : MsgContent)
  | other (tag : String)

/-- `message.content`: a plain string or an array of typed blocks. -/
inductive MsgContent where
  | str (s : String)
  | blocks (bs : List Block)

end

/-- One request message. -/
structure Message where
  role : String
  content : MsgContent

/-- `getContentText` on an array of blocks (src/claude/kiro-request-builder.js
lines 18-22, 25-29): keep the `text` blocks with truthy (non-empty) text and
join them. -/
def textConcat (bs : List Block) : String :=
  String.join (bs.filterMap fun b =>
    match b with
    | .text t => if t.isEmpty then none else some t
    | _ => none)

/-- `getContentText(message)` on a message object: a string `content` is
returned as-is; an array is text-joined; the fallthrough
`String(message.content || message)` is only reached with string content. -/
def getContentTextOfMessage (m : Message) : String :=
  match m.content with
  | .str s => s
  | .blocks bs => textConcat bs

/-- `getContentText(inSystemPrompt)` where the system prompt is `null`, a
string, or a block array (the string falls through to
`String(message.content || message)`, yielding itself). -/
def getContentTextOfSystem : Option (Sum String (List Block)) → String
  | none => ""
  | some (.inl s) => s
  | some (.inr bs) => textConcat bs

/-- `getContentText(part.content)` on a tool_result payload (string or block
array). -/
def getContentTextOfPart : MsgContent → String
  | .str s => s
  | .blocks bs => textConcat bs

/-- `content: [{text: …}]` of an emitted tool result, with `status` and id. -/
structure ToolResultOut where
  contentText : String
  status : String
  toolUseId : String
  deriving DecidableEq, Repr

/-- `{format, source:{bytes}}` of an emitted image. -/
structure ImageOut where
  format : String
  bytes : String
  deriving DecidableEq, Repr

/-- `{input, name, toolUseId}` of an emitted tool use. -/
structure ToolUseOut where
  input : JValue
  name : String
  toolUseId : String

/-- `{toolSpecification:{name, description, inputSchema:{json}}}`. -/
structure ToolSpec where
  name : String
  description : String
  inputSchemaJson : JValue

/-- An incoming tool declaration. -/
structure ToolIn where
  name : String
  description : Option String
  inputSchema : Option JValue

/-- The `userInputMessageContext` object (omitted fields are `none`). -/
structure UserInputContext where
  toolResults : Option (List ToolResultOut)
  tools : Option (List ToolSpec)

/-- An emitted `userInputMessage` (optional fields omitted when `none`). -/
structure UserInputMessage where
  content : String
  modelId : Option String
  origin : String
  images : Option (List ImageOut)
  context : Option UserInputContext

/-- An emitted `assistantResponseMessage`. -/
structure AssistantMsgOut where
  content : String
  toolUses : Option (List ToolUseOut)

inductive HistoryItem where
  | user (m : UserInputMessage)
  | assistant (m : AssistantMsgOut)

/-- The emitted `conversationState` envelope (plus optional `profileArn`). -/
structure CwRequest where
  chatTriggerType : String
  conversationId : String
  history : Option (List HistoryItem)
  currentMessage : UserInputMessage
  profileArn : Option String

/-- `part.source.media_type.split('/')[1]`. -/
def mimeSuffix (s : String) : String :=
  match (s.splitOn "/").drop 1 with
  | x :: _ => x
  | [] => ""

/-- Content merging of adjacent same-role messages
(src/claude/kiro-request-builder.js lines 75-85). -/
def mergeContent : MsgContent → MsgContent → MsgContent
  | .blocks a, .blocks b => .blocks (a ++ b)
  | .str a, .str b => .str (a ++ "\n" ++ b)
  | .blocks a, .str b => .blocks (a ++ [.text b])
  | .str a, .blocks b => .blocks (.text a :: b)

/-- The adjacent-role merge loop (src/claude/kiro-request-builder.js lines
65-91), expressed over the reversed accumulator. -/
def mergeMessages (msgs : List Message) : List Message :=
  (msgs.foldl
    (fun acc cur =>
      match acc with
      | [] => [cur]
      | last :: rest =>
        if cur.role = last.role then
          { last with content := mergeContent last.content cur.content } :: rest
        else cur :: last :: rest)
    []).reverse

/-- Deduplicate tool results by `toolUseId`, first occurrence wins
(src/claude/kiro-request-builder.js lines 179-186 and 339-346). -/
def dedupeToolResults (trs : List ToolResultOut) : List ToolResultOut :=
  (trs.foldl
    (fun (st : List String × List ToolResultOut) tr =>
      if st.1.contains tr.toolUseId then st
      else (tr.toolUseId :: st.1, st.2 ++ [tr]))
    ([], [])).2

/-- Accumulator of one user-message block walk. -/
structure UserWalk where
  content : String
  images : List ImageOut
  toolResults : List ToolResultOut
  toolUses : List ToolUseOut

/-- The block walk of a user history message (src/claude/kiro-request-builder.js
lines 150-168): texts concatenate verbatim, tool_results and images collect,
anything else is ignored. -/
def walkUserBlocks (bs : List Block) : UserWalk :=
  bs.foldl
    (fun st b =>
      match b with
      | .text t => { st with content := st.content ++ t }
      | .toolResult tid c =>
        { st with toolResults := st.toolResults ++ [⟨getContentTextOfPart c, "success", tid⟩] }
      | .image mt data => { st with images := st.images ++ [⟨mimeSuffix mt, data⟩] }
      | _ => st)
    ⟨"", [], [], []⟩

/-- The block walk of the current user message (lines 275-299), which also
collects tool_use blocks. -/
def walkCurrentBlocks (bs : List Block) : UserWalk :=
  bs.foldl
    (fun st b =>
      match b with
      | .text t => { st with content := st.content ++ t }
      | .toolResult tid c =>
        { st with toolResults := st.toolResults ++ [⟨getContentTextOfPart c, "success", tid⟩] }
      | .toolUse id name input => { st with toolUses := st.toolUses ++ [⟨input, name, id⟩] }
      | .image mt data => { st with images := st.images ++ [⟨mimeSuffix mt, data⟩] }
      | _ => st)
    ⟨"", [], [], []⟩

/-- The block walk of an assistant message (lines 197-211 and 238-252). -/
def walkAssistantBlocks (bs : List Block) : String × List ToolUseOut :=
  bs.foldl
    (fun st b =>
      match b with
      | .text t => (st.1 ++ t, st.2)
      | .toolUse id name input => (st.1, st.2 ++ [⟨input, name, id⟩])
      | _ => st)
    ("", [])

/-- One history entry for a user message (lines 141-190). -/
def buildUserHistoryItem (modelId : Option String) (m : Message) : HistoryItem :=
  match m.content with
  | .blocks bs =>
    let w := walkUserBlocks bs
    .user
      { content := w.content
        modelId := modelId
        origin := "AI_EDITOR"
        images := if w.images.isEmpty then none else some w.images
        context :=
          if w.toolResults.isEmpty then none
          else some ⟨some (dedupeToolResults w.toolResults), none⟩ }
  | .str _ =>
    .user
      { content := getContentTextOfMessage m
        modelId := modelId
        origin := "AI_EDITOR"
        images := none
        context := none }

/-- One history entry for an assistant message (lines 191-219). -/
def buildAssistantHistoryItem (m : Message) : HistoryItem :=
  match m.content with
  | .blocks bs =>
    let w := walkAssistantBlocks bs
    .assistant { content := w.1, toolUses := if w.2.isEmpty then none else some w.2 }
  | .str _ =>
    .assistant { content := getContentTextOfMessage m, toolUses := none }

/-- The history mapping loop (lines 139-220): messages from `startIndex` up to
the second-to-last, with roles other than user/assistant skipped. -/
def buildHistoryItems (modelId : Option String) (msgs : List Message) : List HistoryItem :=
  msgs.filterMap fun m =>
    if m.role = "user" then some (buildUserHistoryItem modelId m)
    else if m.role = "assistant" then some (buildAssistantHistoryItem m)
    else none

/-- `buildCodewhispererRequest` (src/claude/kiro-request-builder.js lines
45-365).  `conversationId` stands for the fresh `uuidv4()`; the model-mapping
object is a lookup function.  `none` models the `No user messages found`
throw and the `TypeError` of line 58 (reading `content[0].type` of an empty
assistant content). -/
def buildCodewhispererRequest (conversationId : String) (messages : List Message)
    (model : String) (modelMapping : String → Option String) (tools : Option (List ToolIn))
    (inSystemPrompt : Option (Sum String (List Block))) (authMethod : Option String)
    (profileArn : Option String) : Option CwRequest :=
  let systemPrompt := getContentTextOfSystem inSystemPrompt
  match messages.getLast? with
  | none => none
  | some lastMsg =>
    let dropLast : Option Bool :=
      if lastMsg.role = "assistant" then
        match lastMsg.content with
        | .str s => if s.isEmpty then none else some false
        | .blocks [] => none
        | .blocks (b :: _) =>
          match b with
          | .text t => some (t = "\x7b")
          | _ => some false
      else some false
    match dropLast with
    | none => none
    | some drop =>
      let processed0 := if drop then messages.dropLast else messages
      let processed := mergeMessages processed0
      let codewhispererModel :=
        match modelMapping model with
        | some m => some m
        | none => modelMapping "claude-opus-4-5"
      let toolSpecs : List ToolSpec :=
        match tools with
        | some ts =>
          if ts.isEmpty then []
          else ts.map fun t =>
            ⟨t.name, t.description.getD "", t.inputSchema.getD (.obj [])⟩
        | none => []
      match processed.head? with
      | none => none
      | some firstMsg =>
        let sysEntry : List HistoryItem × Nat :=
          if systemPrompt.isEmpty then ([], 0)
          else if firstMsg.role = "user" then
            ([.user
                { content := systemPrompt ++ "\n\n" ++ getContentTextOfMessage firstMsg
                  modelId := codewhispererModel
                  origin := "AI_EDITOR"
                  images := none
                  context := none }], 1)
          else
            ([.user
                { content := systemPrompt
                  modelId := codewhispererModel
                  origin := "AI_EDITOR"
                  images := none
                  context := none }], 0)
        let midMessages := (processed.take (processed.length - 1)).drop sysEntry.2
        let history0 := sysEntry.1 ++ buildHistoryItems codewhispererModel midMessages
        match processed.getLast? with
        | none => none
        | some currentMsg =>
          let result : List HistoryItem × String × UserWalk :=
            if currentMsg.role = "assistant" then
              let w :=
                match currentMsg.content with
                | .blocks bs => walkAssistantBlocks bs
                | .str _ => (getContentTextOfMessage currentMsg, [])
              (history0 ++ [.assistant
                  { content := w.1
                    toolUses := if w.2.isEmpty then none else some w.2 }],
                "Continue", ⟨"", [], [], []⟩)
            else
              let history1 :=
                if history0.isEmpty then history0
                else
                  match history0.getLast? with
                  | some (.assistant _) => history0
                  | _ => history0 ++ [.assistant { content := "Continue", toolUses := none }]
              let w :=
                match currentMsg.content with
                | .blocks bs => walkCurrentBlocks bs
                | .str _ => { content := getContentTextOfMessage currentMsg,
                              images := [], toolResults := [], toolUses := [] : UserWalk }
              let cc :=
                if w.content.isEmpty then
                  if w.toolResults.isEmpty then "Continue" else "Tool results provided."
                else w.content
              (history1, cc, w)
          let ctx : Option UserInputContext :=
            let trs := result.2.2.toolResults
            if trs.isEmpty ∧ toolSpecs.isEmpty then none
            else some
              ⟨if trs.isEmpty then none else some (dedupeToolResults trs),
                if toolSpecs.isEmpty then none else some toolSpecs⟩
          some
            { chatTriggerType := "MANUAL"
              conversationId := conversationId
              history := if result.1.isEmpty then none else some result.1
              currentMessage :=
                { content := result.2.1
                  modelId := codewhispererModel
                  origin := "AI_EDITOR"
                  images := if result.2.2.images.isEmpty then none else some result.2.2.images
                  context := ctx }
              profileArn :=
                if authMethod = some "social" then
                  match profileArn with
                  | some arn => if arn.isEmpty then none else some arn
                  | none => none
                else none }

end Builder

end AIClient2API

namespace AIClient2API

namespace Auth

/-- In-memory auth fields of `KiroAuthManager` touched by the token-refresh
step of `initializeAuth` (src/kiro/auth.js lines 186-229).  `expiresAt` is an
instant in milliseconds (`none` for JS `null`). -/
structure AuthState where
  accessToken : Option String
  refreshToken : Option String
  clientId : Option String
  clientSecret : Option String
  authMethod : Option String
  profileArn : Option String
  expiresAt : Option Int
  deriving DecidableEq, Repr

/-- Fields of `response.data` the refresh step reads. -/
structure RefreshResponseData where
  accessToken : Option String
  refreshToken : Option String
  profileArn : Option String
  expiresIn : Option Int
  deriving DecidableEq, Repr

/-- The 2xx-response branch of the refresh step (src/kiro/auth.js lines
199-229): on a truthy `accessToken`, `this.accessToken/refreshToken/profileArn`
are assigned first; then `expiresAt` is computed as
`new Date(Date.now() + expiresIn * 1000).toISOString()` — when `expiresIn` is
absent this is `new Date(NaN).toISOString()`, which throws `RangeError:
Invalid time value`, caught and rethrown as `Token refresh failed: …` before
`this.expiresAt` or the credentials file is updated.  Returns the state as
mutated so far and the raised error (`none` on success). -/
def applyRefreshResponse (st : AuthState) (now : Int) (data : Option RefreshResponseData) :
    AuthState × Option String :=
  match data with
  | none => (st, some "Token refresh failed: Invalid refresh response: Missing accessToken")
  | some d =>
    match d.accessToken with
    | none => (st, some "Token refresh failed: Invalid refresh response: Missing accessToken")
    | some tok =>
      if tok.isEmpty then
        (st, some "Token refresh failed: Invalid refresh response: Missing accessToken")
      else
        let st1 := { st with
          accessToken := some tok
          refreshToken := d.refreshToken
          profileArn := d.profileArn }
        match d.expiresIn with
        | none => (st1, some "Token refresh failed: Invalid time value")
        | some e => ({ st1 with expiresAt := some (now + e * 1000) }, none)

end Auth

end AIClient2API

namespace AIClient2API.Pool

theorem runOps_append (maxEC : Nat) (a : Account) (ops : List MarkOp) (op : MarkOp) :
    runOps maxEC a (ops ++ [op]) = applyOp maxEC (runOps maxEC a ops) op := by
  simp [runOps, List.foldl_append]

theorem sinceLastHealthyCount_append (ops : List MarkOp) (op : MarkOp) :
    sinceLastHealthyCount (ops ++ [op]) =
      if isHealthyOp op then 0 else sinceLastHealthyCount ops + 1 := by
  simp [sinceLastHealthyCount, List.foldl_append]

theorem sinceLastHealthyCount_le (ops : List MarkOp) :
    sinceLastHealthyCount ops ≤ ops.length := by
  induction ops using List.reverseRecOn with
  | nil => simp [sinceLastHealthyCount]
  | append_singleton ops op ih =>
    rw [sinceLastHealthyCount_append]
    by_cases h : isHealthyOp op
    · simp [h]
    · simp [h]; omega

theorem lastHealthyCut_append (ops : List MarkOp) (op : MarkOp) :
    lastHealthyCut (ops ++ [op]) =
      if isHealthyOp op then ops.length + 1 else lastHealthyCut ops := by
  have h := sinceLastHealthyCount_le ops
  rw [lastHealthyCut, sinceLastHealthyCount_append]
  by_cases hop : isHealthyOp op
  · simp [hop, lastHealthyCut]
  · simp [hop, lastHealthyCut]

theorem markHealthyAcc_fields (r : Bool) (m : Option String) (t : Nat) (a : Account) :
    (markHealthyAcc r m t a).isHealthy = true ∧ (markHealthyAcc r m t a).errorCount = 0 ∧
    (markHealthyAcc r m t a).lastErrorTime = none ∧
    (markHealthyAcc r m t a).lastErrorMessage = none := by
  cases r <;> simp [markHealthyAcc]

theorem markUnhealthyAcc_errorCount (me : Nat) (m : Option String) (t : Nat) (a : Account) :
    (markUnhealthyAcc me m t a).errorCount = a.errorCount + 1 := by
  simp only [markUnhealthyAcc]
  split <;> rfl

theorem markUnhealthyAcc_isHealthy (me : Nat) (m : Option String) (t : Nat) (a : Account) :
    ((markUnhealthyAcc me m t a).isHealthy = false ↔
      (a.isHealthy = false ∨ me ≤ a.errorCount + 1)) := by
  simp only [markUnhealthyAcc]
  split
  next h => exact iff_of_true rfl (Or.inr h)
  next h =>
    constructor
    · exact fun hh => Or.inl hh
    · rintro (hh | hh)
      · exact hh
      · exact absurd hh h

theorem resetCountersAcc_fields (a : Account) :
    (resetCountersAcc a).errorCount = 0 ∧ (resetCountersAcc a).isHealthy = a.isHealthy := by
  simp [resetCountersAcc]

theorem reachedBudget_append (maxEC : Nat) (a : Account) (ops : List MarkOp) (op : MarkOp) :
    ReachedBudget maxEC a (ops ++ [op]) ↔
      ((isHealthyOp op = false ∧ ReachedBudget maxEC a ops) ∨
        maxEC ≤ (runOps maxEC a (ops ++ [op])).errorCount) := by
  unfold ReachedBudget
  rw [lastHealthyCut_append]
  have hlen : (ops ++ [op]).length = ops.length + 1 := by simp
  have htake : (ops ++ [op]).take (ops.length + 1) = ops ++ [op] := by
    rw [← hlen]; exact List.take_length _
  cases hop : isHealthyOp op
  · simp only [Bool.false_eq_true, if_false]
    have hcut : lastHealthyCut ops ≤ ops.length := by
      have := sinceLastHealthyCount_le ops
      unfold lastHealthyCut
      omega
    constructor
    · rintro ⟨k, hk1, hk2, hk3⟩
      rw [hlen] at hk2
      by_cases hkn : k ≤ ops.length
      · left
        refine ⟨by trivial, ⟨k, hk1, hkn, ?_⟩⟩
        rwa [List.take_append_of_le_length hkn] at hk3
      · have hk : k = ops.length + 1 := by omega
        subst hk
        right
        rwa [htake] at hk3
    · rintro (⟨_, ⟨k, hk1, hk2, hk3⟩⟩ | h)
      · exact ⟨k, hk1, by omega, by rwa [List.take_append_of_le_length hk2]⟩
      · exact ⟨ops.length + 1, by omega, by simp, by rwa [htake]⟩
  · rw [if_pos rfl]
    constructor
    · rintro ⟨k, hk1, hk2, hk3⟩
      rw [hlen] at hk2
      have hk : k = ops.length + 1 := by omega
      subst hk
      right
      rwa [htake] at hk3
    · rintro (⟨hfalse, _⟩ | h)
      · cases hfalse
      · exact ⟨ops.length + 1, le_refl _, by simp, by rwa [htake]⟩

/-- C1: Error-budget invariant.  For any `maxErrorCount ≥ 1` and any account
whose starting state satisfies the invariant, after every finite sequence of
`markProviderUnhealthy` / `markProviderHealthy` / `resetProviderCounters`
operations, `isHealthy = false` holds iff the `errorCount` has reached
`maxErrorCount` at some instant since the last `markProviderHealthy`; and
`markProviderHealthy` always restores `isHealthy = true` and zeroes
`errorCount`, `lastErrorTime` and `lastErrorMessage`. -/
theorem errorBudget_invariant (maxEC : Nat) (a : Account)
    (hmax : 1 ≤ maxEC) (hinit : a.isHealthy = false ↔ maxEC ≤ a.errorCount) :
    (∀ ops : List MarkOp,
      ((runOps maxEC a ops).isHealthy = false ↔ ReachedBudget maxEC a ops))
    ∧ ∀ r m t b, (markHealthyAcc r m t b).isHealthy = true
        ∧ (markHealthyAcc r m t b).errorCount = 0
        ∧ (markHealthyAcc r m t b).lastErrorTime = none
        ∧ (markHealthyAcc r m t b).lastErrorMessage = none := by
  refine ⟨?_, fun r m t b => markHealthyAcc_fields r m t b⟩
  intro ops
  induction ops using List.reverseRecOn with
  | nil =>
    show a.isHealthy = false ↔ ReachedBudget maxEC a []
    rw [hinit]
    unfold ReachedBudget
    simp [lastHealthyCut, sinceLastHealthyCount, runOps]
  | append_singleton ops op ih =>
    rw [reachedBudget_append, runOps_append]
    cases op with
    | healthy r m t =>
      have hf := markHealthyAcc_fields r m t (runOps maxEC a ops)
      simp only [applyOp, isHealthyOp]
      rw [hf.2.1]
      constructor
      · intro hcontr; rw [hf.1] at hcontr; cases hcontr
      · rintro (⟨hfalse, _⟩ | h)
        · cases hfalse
        · omega
    | unhealthy m t =>
      simp only [applyOp, isHealthyOp]
      rw [markUnhealthyAcc_isHealthy, markUnhealthyAcc_errorCount, ih]
      tauto
    | reset =>
      simp only [applyOp, isHealthyOp]
      have hr := resetCountersAcc_fields (runOps maxEC a ops)
      rw [hr.2, hr.1, ih]
      constructor
      · intro h; exact Or.inl ⟨by trivial, h⟩
      · rintro (⟨_, h⟩ | h)
        · exact h
        · omega

end AIClient2API.Pool

namespace AIClient2API.Pool

theorem lruLess_true_iff (a b : Account) :
    lruLess a b = true ↔
      (lruTime a < lruTime b ∨ (lruTime a = lruTime b ∧ a.usageCount < b.usageCount)) := by
  unfold lruLess
  by_cases h : lruTime a ≠ lruTime b
  · rw [if_pos h]
    simp only [decide_eq_true_eq]
    omega
  · rw [if_neg h]
    simp only [decide_eq_true_eq]
    push_neg at h
    omega

theorem lruKeyLe_refl (a : Account) : lruKeyLe a a :=
  Or.inr ⟨rfl, le_refl _⟩

theorem lruKeyLe_trans (a b c : Account) :
    lruKeyLe a b → lruKeyLe b c → lruKeyLe a c := by
  unfold lruKeyLe
  omega

theorem lruLess_le (a b : Account) (h : lruLess a b = true) : lruKeyLe a b := by
  rw [lruLess_true_iff] at h
  unfold lruKeyLe
  omega

theorem not_lruLess_le (a b : Account) (h : lruLess a b = false) : lruKeyLe b a := by
  have h' : ¬ lruLess a b = true := by simp [h]
  rw [lruLess_true_iff] at h'
  unfold lruKeyLe
  omega

theorem foldl_lruStep_mem (xs : List (Nat × Account)) (best : Nat × Account) :
    xs.foldl lruStep best = best ∨ xs.foldl lruStep best ∈ xs := by
  induction xs generalizing best with
  | nil => exact Or.inl rfl
  | cons z xs ih =>
    simp only [List.foldl_cons]
    rcases ih (lruStep best z) with h | h
    · rw [h]
      unfold lruStep
      split
      · right; exact List.mem_cons_self _ _
      · left; rfl
    · right; exact List.mem_cons_of_mem _ h

theorem foldl_lruStep_min (xs : List (Nat × Account)) (best : Nat × Account) :
    ∀ y, (y = best ∨ y ∈ xs) → lruKeyLe (xs.foldl lruStep best).2 y.2 := by
  induction xs generalizing best with
  | nil =>
    rintro y (rfl | h)
    · exact lruKeyLe_refl _
    · cases h
  | cons z xs ih =>
    intro y hy
    simp only [List.foldl_cons]
    have hpair : lruKeyLe (lruStep best z).2 best.2 ∧ lruKeyLe (lruStep best z).2 z.2 := by
      unfold lruStep
      cases hzb : lruLess z.2 best.2
      · simp only [Bool.false_eq_true, if_false]
        exact ⟨lruKeyLe_refl _, not_lruLess_le _ _ hzb⟩
      · rw [if_pos rfl]
        exact ⟨lruLess_le _ _ hzb, lruKeyLe_refl _⟩
    have hstep_best := hpair.1
    have hstep_z := hpair.2
    have hmin : lruKeyLe ((xs.foldl lruStep (lruStep best z)).2) (lruStep best z).2 :=
      ih (lruStep best z) _ (Or.inl rfl)
    rcases hy with rfl | hy
    · exact lruKeyLe_trans _ _ _ hmin hstep_best
    · rcases List.mem_cons.mp hy with rfl | hy
      · exact lruKeyLe_trans _ _ _ hmin hstep_z
      · exact ih (lruStep best z) y (Or.inr hy)

theorem selectFirstMin_eq_none (l : List (Nat × Account)) :
    selectFirstMin l = none ↔ l = [] := by
  cases l <;> simp [selectFirstMin]

theorem selectFirstMin_spec (l : List (Nat × Account)) (x : Nat × Account)
    (h : selectFirstMin l = some x) :
    x ∈ l ∧ ∀ y ∈ l, lruKeyLe x.2 y.2 := by
  cases l with
  | nil => cases h
  | cons z xs =>
    simp only [selectFirstMin, Option.some_inj] at h
    subst h
    refine ⟨?_, ?_⟩
    · rcases foldl_lruStep_mem xs z with h | h
      · rw [h]; exact List.mem_cons_self _ _
      · exact List.mem_cons_of_mem _ h
    · intro y hy
      rcases List.mem_cons.mp hy with rfl | hy
      · exact foldl_lruStep_min xs y y (Or.inl rfl)
      · exact foldl_lruStep_min xs z y (Or.inr hy)

theorem selectProvider_eq (ps : List Account) (reqModel : Option String)
    (skip : Bool) (now : Nat) :
    selectProvider ps reqModel skip now =
      (match selectFirstMin (eligList ps reqModel) with
       | none => (none, ps)
       | some (i, sel) =>
         if skip then (some sel, ps)
         else (some (touchAcc now sel), ps.set i (touchAcc now sel))) := by
  unfold selectProvider eligList
  cases reqModel with
  | none =>
    have : (ps.enum.filter fun p => p.2.isHealthy && !p.2.isDisabled) =
        ps.enum.filter fun p => eligibleAcc none p.2 := by
      apply List.filter_congr
      intro p _
      simp [eligibleAcc]
    rw [this]
  | some m =>
    have hff : ((ps.enum.filter fun p => p.2.isHealthy && !p.2.isDisabled).filter
          fun p => supportsModel p.2 m) =
        ps.enum.filter fun p => eligibleAcc (some m) p.2 := by
      rw [List.filter_filter]
      apply List.filter_congr
      intro p _
      simp only [eligibleAcc]
      cases p.2.isHealthy <;> cases p.2.isDisabled <;> cases supportsModel p.2 m <;> rfl
    simp only [hff]
    by_cases hmf : (ps.enum.filter fun p => eligibleAcc (some m) p.2).isEmpty
    · rw [if_pos hmf]
      rw [List.isEmpty_iff] at hmf
      rw [hmf]
      rfl
    · rw [if_neg hmf]

end AIClient2API.Pool

namespace AIClient2API.Pool

theorem mem_eligList_iff (ps : List Account) (r : Option String) (i : Nat) (a : Account) :
    (i, a) ∈ eligList ps r ↔ (ps[i]? = some a ∧ eligibleAcc r a = true) := by
  unfold eligList
  rw [List.mem_filter, List.mk_mem_enum_iff_getElem?]

theorem exists_idx_of_mem {ps : List Account} {b : Account} (hb : b ∈ ps) :
    ∃ i : Nat, ps[i]? = some b := by
  rcases List.mem_iff_getElem.mp hb with ⟨i, hi, hget⟩
  exact ⟨i, by rw [List.getElem?_eq_getElem hi, hget]⟩

theorem supportsModel_touchAcc (now : Nat) (a : Account) (m : String) :
    supportsModel (touchAcc now a) m = supportsModel a m := rfl

/-- C2: LRU selection.  `selectProvider` returns `none` exactly when no account
is healthy, enabled, and supports the requested model; otherwise it returns an
account of the filtered set that is minimal under the ascending
`(lastUsed, usageCount)` ordering with `lastUsed = null` read as epoch 0, and —
unless `skipUsageCount` — advances that account's `lastUsed` to now and
increments its `usageCount` by one.  A returned account always supports the
requested model, so an account with `notSupportedModels = [m]` is never
returned for requested model `m`. -/
theorem selectProvider_lru_selection (ps : List Account) (reqModel : Option String)
    (skip : Bool) (now : Nat) :
    ((selectProvider ps reqModel skip now).1 = none ↔
      ∀ a ∈ ps, eligibleAcc reqModel a = false)
    ∧ (∀ a, (selectProvider ps reqModel skip now).1 = some a →
        ∃ i, ∃ hi : i < ps.length,
          eligibleAcc reqModel ps[i] = true
          ∧ (∀ b ∈ ps, eligibleAcc reqModel b = true → lruKeyLe ps[i] b)
          ∧ (skip = true → a = ps[i] ∧ (selectProvider ps reqModel skip now).2 = ps)
          ∧ (skip = false → a = touchAcc now ps[i]
              ∧ (selectProvider ps reqModel skip now).2 = ps.set i (touchAcc now ps[i])
              ∧ a.lastUsed = some now ∧ a.usageCount = ps[i].usageCount + 1))
    ∧ (∀ a m, reqModel = some m → (selectProvider ps reqModel skip now).1 = some a →
        supportsModel a m = true) := by
  rw [selectProvider_eq]
  cases hsel : selectFirstMin (eligList ps reqModel) with
  | none =>
    have hnil : eligList ps reqModel = [] := (selectFirstMin_eq_none _).mp hsel
    have hall : ∀ a ∈ ps, eligibleAcc reqModel a = false := by
      intro a ha
      rcases exists_idx_of_mem ha with ⟨i, hi⟩
      by_contra hne
      have helig : eligibleAcc reqModel a = true := by
        cases h : eligibleAcc reqModel a
        · exact absurd h hne
        · rfl
      have : (i, a) ∈ eligList ps reqModel := (mem_eligList_iff ps reqModel i a).mpr ⟨hi, helig⟩
      rw [hnil] at this
      cases this
    refine ⟨⟨fun _ => hall, fun _ => rfl⟩, ?_, ?_⟩
    · intro a h; cases h
    · intro a m _ h; cases h
  | some p =>
    rcases p with ⟨i, sel⟩
    have hspec := selectFirstMin_spec _ _ hsel
    have hmem := (mem_eligList_iff ps reqModel i sel).mp hspec.1
    rcases List.getElem?_eq_some.mp hmem.1 with ⟨hi, hget⟩
    have helig : eligibleAcc reqModel ps[i] = true := by rw [hget]; exact hmem.2
    have hminall : ∀ b ∈ ps, eligibleAcc reqModel b = true → lruKeyLe ps[i] b := by
      intro b hb heb
      rcases exists_idx_of_mem hb with ⟨j, hj⟩
      have : (j, b) ∈ eligList ps reqModel := (mem_eligList_iff ps reqModel j b).mpr ⟨hj, heb⟩
      have := hspec.2 (j, b) this
      rw [hget]
      exact this
    have hsupports : ∀ m, reqModel = some m → supportsModel sel m = true := by
      intro m hm
      subst hm
      have ht := hmem.2
      simp only [eligibleAcc, Bool.and_eq_true] at ht
      exact ht.2
    cases skip with
    | true =>
      refine ⟨⟨fun h => absurd h (by simp), fun h => by
          have hf := h sel (hget ▸ List.getElem_mem hi)
          have ht := hmem.2
          rw [hf] at ht
          cases ht⟩, ?_, ?_⟩
      · intro a ha
        have ha' : a = sel := by
          simp only [if_pos rfl] at ha
          exact (Option.some_inj.mp ha).symm
        subst ha'
        refine ⟨i, hi, helig, hminall, ?_, ?_⟩
        · intro _
          exact ⟨hget.symm, rfl⟩
        · intro h
          cases h
      · intro a m hm ha
        have ha' : a = sel := by
          simp only [if_pos rfl] at ha
          exact (Option.some_inj.mp ha).symm
        subst ha'
        exact hsupports m hm
    | false =>
      refine ⟨⟨fun h => absurd h (by simp), fun h => by
          have hf := h sel (hget ▸ List.getElem_mem hi)
          have ht := hmem.2
          rw [hf] at ht
          cases ht⟩, ?_, ?_⟩
      · intro a ha
        have ha' : a = touchAcc now sel := by
          simp only [Bool.false_eq_true, if_false] at ha
          exact (Option.some_inj.mp ha).symm
        subst ha'
        refine ⟨i, hi, helig, hminall, ?_, ?_⟩
        · intro h
          cases h
        · intro _
          rw [hget]
          exact ⟨rfl, rfl, rfl, rfl⟩
      · intro a m hm ha
        have ha' : a = touchAcc now sel := by
          simp only [Bool.false_eq_true, if_false] at ha
          exact (Option.some_inj.mp ha).symm
        subst ha'
        rw [supportsModel_touchAcc]
        exact hsupports m hm

end AIClient2API.Pool

namespace AIClient2API.Pool

theorem errorBudget_invariant_witness :
    ((1 : Nat) ≤ 3 ∧ ((freshAccount "A").isHealthy = false ↔ 3 ≤ (freshAccount "A").errorCount))
    ∧ ((runOps 3 (freshAccount "A") demoMarkOps).isHealthy = false ↔
        ReachedBudget 3 (freshAccount "A") demoMarkOps) :=
  ⟨⟨by decide, by decide⟩,
    (errorBudget_invariant 3 (freshAccount "A") (by decide) (by decide)).1 demoMarkOps⟩

theorem selectProvider_lru_selection_witness :
    (selectProvider demoPool (some "m1") false 100).1 = some (touchAcc 100 poolA)
    ∧ supportsModel (touchAcc 100 poolA) "m1" = true :=
  have hres : (selectProvider demoPool (some "m1") false 100).1 = some (touchAcc 100 poolA) := by
    decide
  ⟨hres, (selectProvider_lru_selection demoPool (some "m1") false 100).2.2
    (touchAcc 100 poolA) "m1" rfl hres⟩

/-- C9: Selection frame property.  `selectProvider` leaves the pool unchanged
when `skipUsageCount` is set or when it returns `none`; otherwise exactly one
slot changes, to `touchAcc` of its old value, which differs from the old
account in at most the `lastUsed` and `usageCount` fields. -/
theorem selectProvider_frame (ps : List Account) (reqModel : Option String)
    (skip : Bool) (now : Nat) :
    (skip = true → (selectProvider ps reqModel skip now).2 = ps)
    ∧ ((selectProvider ps reqModel skip now).1 = none →
        (selectProvider ps reqModel skip now).2 = ps)
    ∧ ∀ a, (selectProvider ps reqModel skip now).1 = some a →
        ∃ i, ∃ hi : i < ps.length,
          (selectProvider ps reqModel skip now).2.length = ps.length
          ∧ (∀ j : Nat, j ≠ i → ((selectProvider ps reqModel skip now).2)[j]? = ps[j]?)
          ∧ ((selectProvider ps reqModel skip now).2)[i]? =
              some (if skip then ps[i] else touchAcc now ps[i])
          ∧ (touchAcc now ps[i]).uuid = ps[i].uuid
          ∧ (touchAcc now ps[i]).isHealthy = ps[i].isHealthy
          ∧ (touchAcc now ps[i]).isDisabled = ps[i].isDisabled
          ∧ (touchAcc now ps[i]).errorCount = ps[i].errorCount
          ∧ (touchAcc now ps[i]).lastErrorTime = ps[i].lastErrorTime
          ∧ (touchAcc now ps[i]).lastErrorMessage = ps[i].lastErrorMessage
          ∧ (touchAcc now ps[i]).lastHealthCheckTime = ps[i].lastHealthCheckTime
          ∧ (touchAcc now ps[i]).lastHealthCheckModel = ps[i].lastHealthCheckModel
          ∧ (touchAcc now ps[i]).notSupportedModels = ps[i].notSupportedModels := by
  rw [selectProvider_eq]
  cases hsel : selectFirstMin (eligList ps reqModel) with
  | none =>
    refine ⟨fun _ => rfl, fun _ => rfl, ?_⟩
    intro a ha
    cases ha
  | some p =>
    rcases p with ⟨i, sel⟩
    have hspec := selectFirstMin_spec _ _ hsel
    have hmem := (mem_eligList_iff ps reqModel i sel).mp hspec.1
    rcases List.getElem?_eq_some.mp hmem.1 with ⟨hi, hget⟩
    subst hget
    cases skip with
    | true =>
      refine ⟨fun _ => rfl, fun h => by simp at h, ?_⟩
      intro a _
      refine ⟨i, hi, rfl, fun j _ => rfl, ?_, rfl, rfl, rfl, rfl, rfl, rfl, rfl, rfl, rfl⟩
      rw [if_pos rfl]
      exact List.getElem?_eq_getElem hi
    | false =>
      simp only [Bool.false_eq_true, if_false]
      refine ⟨fun h => h.elim, fun h => by simp at h, ?_⟩
      intro a _
      refine ⟨i, hi, ?_, ?_, ?_, rfl, rfl, rfl, rfl, rfl, rfl, rfl, rfl, rfl⟩
      · simp
      · intro j hj
        rw [List.getElem?_set_ne (Ne.symm hj)]
      · simp [List.getElem?_set, hi]

theorem selectProvider_frame_witness :
    (selectProvider demoPool none true 100).2 = demoPool
    ∧ (selectProvider demoPool none false 100).1 = some (touchAcc 100 poolB) :=
  ⟨(selectProvider_frame demoPool none true 100).1 rfl, by decide⟩

theorem updateFirst_id (pred : Account → Bool) (f : Account → Account)
    (ps : List Account) (h : ∀ a ∈ ps, pred a = false) :
    updateFirst pred f ps = ps := by
  induction ps with
  | nil => rfl
  | cons a rest ih =>
    unfold updateFirst
    simp only [h a (List.mem_cons_self a rest), Bool.false_eq_true, if_false]
    rw [ih fun b hb => h b (List.mem_cons_of_mem _ hb)]

/-- C10: Marks with a missing uuid, or a uuid not present in the pool, leave
every account unchanged (the three methods are total and return without
touching the list). -/
theorem markOps_unknown_uuid_noop (maxEC : Nat) (cfgUuid : Option String)
    (msg hcm : Option String) (r : Bool) (now : Nat) (ps : List Account)
    (h : ∀ a ∈ ps, some a.uuid ≠ cfgUuid) :
    markProviderUnhealthy maxEC cfgUuid msg now ps = ps
    ∧ markProviderHealthy cfgUuid r hcm now ps = ps
    ∧ resetProviderCounters cfgUuid ps = ps := by
  cases cfgUuid with
  | none => exact ⟨rfl, rfl, rfl⟩
  | some u =>
    have hne : ∀ a ∈ ps, (a.uuid == u) = false := by
      intro a ha
      have := h a ha
      simp only [ne_eq, Option.some_inj] at this
      exact beq_eq_false_iff_ne.mpr this
    by_cases hu : u.isEmpty
    · simp [markProviderUnhealthy, markProviderHealthy, resetProviderCounters, hu]
    · rw [Bool.not_eq_true] at hu
      simp only [markProviderUnhealthy, markProviderHealthy, resetProviderCounters, hu,
        Bool.false_eq_true, if_false]
      exact ⟨updateFirst_id _ _ _ hne, updateFirst_id _ _ _ hne, updateFirst_id _ _ _ hne⟩

theorem markOps_unknown_uuid_noop_witness :
    (∀ a ∈ demoPool, some a.uuid ≠ some "Z")
    ∧ markProviderUnhealthy 3 (some "Z") none 7 demoPool = demoPool
    ∧ markProviderHealthy (some "Z") false none 7 demoPool = demoPool
    ∧ resetProviderCounters (some "Z") demoPool = demoPool :=
  ⟨by decide, markOps_unknown_uuid_noop 3 (some "Z") none none false 7 demoPool (by decide)⟩

/-- C8 as stated is false: on the default (request) path `markProviderHealthy`
increments `usageCount`, so applying it twice does not equal applying it once. -/
theorem markHealthy_not_idempotent_counterexample :
    markHealthyAcc false none 0 (markHealthyAcc false none 0 (freshAccount "A")) ≠
      markHealthyAcc false none 0 (freshAccount "A") := by decide

/-- C8 amended: `markProviderHealthy` is fully idempotent on the probe path
(`resetUsageCount = true`, same timestamp and model), and on the default path a
second application agrees with a single one on `isHealthy`, `errorCount`,
`lastErrorTime` and `lastErrorMessage` but increments `usageCount` once more;
applying `markProviderUnhealthy` any number of times followed by one
`markProviderHealthy` restores `isHealthy = true` and `errorCount = 0`. -/
theorem markHealthy_algebra (maxEC : Nat) :
    (∀ m t b, markHealthyAcc true m t (markHealthyAcc true m t b) = markHealthyAcc true m t b)
    ∧ (∀ m m' t t' b,
        (markHealthyAcc false m t (markHealthyAcc false m' t' b)).isHealthy
            = (markHealthyAcc false m' t' b).isHealthy
          ∧ (markHealthyAcc false m t (markHealthyAcc false m' t' b)).errorCount
            = (markHealthyAcc false m' t' b).errorCount
          ∧ (markHealthyAcc false m t (markHealthyAcc false m' t' b)).lastErrorTime
            = (markHealthyAcc false m' t' b).lastErrorTime
          ∧ (markHealthyAcc false m t (markHealthyAcc false m' t' b)).lastErrorMessage
            = (markHealthyAcc false m' t' b).lastErrorMessage
          ∧ (markHealthyAcc false m t (markHealthyAcc false m' t' b)).usageCount
            = (markHealthyAcc false m' t' b).usageCount + 1)
    ∧ (∀ (l : List (Option String × Nat)) (r : Bool) (m : Option String) (t : Nat) (b : Account),
        (markHealthyAcc r m t
          (l.foldl (fun acc p => markUnhealthyAcc maxEC p.1 p.2 acc) b)).isHealthy = true
        ∧ (markHealthyAcc r m t
          (l.foldl (fun acc p => markUnhealthyAcc maxEC p.1 p.2 acc) b)).errorCount = 0) := by
  refine ⟨?_, ?_, ?_⟩
  · intro m t b
    cases m with
    | none => simp [markHealthyAcc]
    | some s =>
      by_cases hs : s.isEmpty <;> simp [markHealthyAcc, hs]
  · intro m m' t t' b
    exact ⟨rfl, rfl, rfl, rfl, rfl⟩
  · intro l r m t b
    have hf := markHealthyAcc_fields r m t (l.foldl (fun acc p => markUnhealthyAcc maxEC p.1 p.2 acc) b)
    exact ⟨hf.1, hf.2.1⟩

end AIClient2API.Pool

namespace AIClient2API.Kiro

open AIClient2API.Json

/-- C3: the incremental parser is not sound.  On the prefix
`{"stop":true}{"content":"ab` of the valid stream
`{"stop":true}{"content":"abcd"}`, the first pass correctly emits the one
complete event but then cuts the retained buffer a second time
(`remaining.substring(searchStart)` after the incomplete branch already took
`substring(jsonStart)`), leaving `"b"` instead of the partial event
`{"content":"ab`; the continuation `cd"}` therefore yields nothing, while a
single pass over the whole stream yields the `content` event as well — the
total event sequences differ, contradicting the soundness invariant the
parser's own comments promise (keep incomplete JSON buffered for more data). -/
theorem parser_incremental_soundness_bug :
    parseAwsBufferStr "\x7b\"stop\":true\x7d\x7b\"content\":\"ab"
      = ([KiroEvent.toolUseStop (.bool true)], "b")
    ∧ parseAwsBufferStr ("b" ++ "cd\"\x7d") = ([], "bcd\"\x7d")
    ∧ parseAwsBufferStr ("\x7b\"stop\":true\x7d\x7b\"content\":\"ab" ++ "cd\"\x7d")
      = ([KiroEvent.toolUseStop (.bool true), KiroEvent.content (.str "abcd")], "")
    ∧ ([KiroEvent.toolUseStop (.bool true)] ++ ([] : List KiroEvent)).length
      ≠ [KiroEvent.toolUseStop (.bool true), KiroEvent.content (.str "abcd")].length := by
  exact ⟨rfl, rfl, rfl, by decide⟩

/-- C5 as stated is false: an object that carries `followupPrompt` can still
produce an event — `{"followupPrompt":"x","stop":true}` has no `content`,
no truthy `name`, no `input`, but a `stop` field, so the chain emits a
`toolUseStop` event rather than nothing. -/
theorem classify_followup_counterexample :
    parseAwsBufferStr "\x7b\"followupPrompt\":\"x\",\"stop\":true\x7d"
      = ([KiroEvent.toolUseStop (.bool true)], "") := rfl

/-- C5 amended: the classification of each parsed object follows the code's
else-if chain with JS truthiness — `content` iff a `content` field exists and
`followupPrompt` is absent or falsy; `toolUse` iff not the former and both
`name` and `toolUseId` are truthy; `toolUseInput` iff none of the former, an
`input` field exists and `name` is absent or falsy; `toolUseStop` iff none of
the former and a `stop` field exists.  An object carrying `followupPrompt` is
suppressed only on the `content` path. -/
theorem classify_cases (p : JValue) :
    ((classifyKiroEvent p).map eventKind = some 0 ↔
      ((objGet p "content").isSome = true ∧ optTruthy (objGet p "followupPrompt") = false))
    ∧ ((classifyKiroEvent p).map eventKind = some 1 ↔
      (¬((objGet p "content").isSome = true ∧ optTruthy (objGet p "followupPrompt") = false)
        ∧ optTruthy (objGet p "name") = true ∧ optTruthy (objGet p "toolUseId") = true))
    ∧ ((classifyKiroEvent p).map eventKind = some 2 ↔
      (¬((objGet p "content").isSome = true ∧ optTruthy (objGet p "followupPrompt") = false)
        ∧ ¬(optTruthy (objGet p "name") = true ∧ optTruthy (objGet p "toolUseId") = true)
        ∧ (objGet p "input").isSome = true ∧ optTruthy (objGet p "name") = false))
    ∧ ((classifyKiroEvent p).map eventKind = some 3 ↔
      (¬((objGet p "content").isSome = true ∧ optTruthy (objGet p "followupPrompt") = false)
        ∧ ¬(optTruthy (objGet p "name") = true ∧ optTruthy (objGet p "toolUseId") = true)
        ∧ ¬((objGet p "input").isSome = true ∧ optTruthy (objGet p "name") = false)
        ∧ (objGet p "stop").isSome = true)) := by
  unfold classifyKiroEvent
  by_cases h1 : ((objGet p "content").isSome && !(optTruthy (objGet p "followupPrompt"))) = true
  · have h1p : (objGet p "content").isSome = true ∧ optTruthy (objGet p "followupPrompt") = false := by
      simpa [Bool.and_eq_true, Bool.not_eq_true'] using h1
    obtain ⟨v, hc⟩ := Option.isSome_iff_exists.mp h1p.1
    simp [h1, hc, eventKind, h1p.2]
  · have h1p : ¬((objGet p "content").isSome = true ∧ optTruthy (objGet p "followupPrompt") = false) := by
      intro hcontr
      exact h1 (by simp [Bool.and_eq_true, Bool.not_eq_true', hcontr.1, hcontr.2])
    simp only [h1, if_false, Bool.false_eq_true]
    by_cases h2 : (optTruthy (objGet p "name") && optTruthy (objGet p "toolUseId")) = true
    · have h2p : optTruthy (objGet p "name") = true ∧ optTruthy (objGet p "toolUseId") = true := by
        simpa [Bool.and_eq_true] using h2
      have hnn : (objGet p "name").isSome = true := by
        rcases hx : objGet p "name" with _ | n
        · rw [hx] at h2p; simp [optTruthy] at h2p
        · rfl
      have htt : (objGet p "toolUseId").isSome = true := by
        rcases hx : objGet p "toolUseId" with _ | t
        · rw [hx] at h2p; simp [optTruthy] at h2p
        · rfl
      obtain ⟨n, hn⟩ := Option.isSome_iff_exists.mp hnn
      obtain ⟨tid, ht⟩ := Option.isSome_iff_exists.mp htt
      have hn2 : optTruthy (some n) = true := hn ▸ h2p.1
      have ht2 : optTruthy (some tid) = true := ht ▸ h2p.2
      simp [h2, hn, ht, eventKind, h1p, hn2, ht2]
    · have h2p : ¬(optTruthy (objGet p "name") = true ∧ optTruthy (objGet p "toolUseId") = true) := by
        intro hcontr
        exact h2 (by simp [Bool.and_eq_true, hcontr.1, hcontr.2])
      simp only [h2, if_false, Bool.false_eq_true]
      by_cases h3 : ((objGet p "input").isSome && !(optTruthy (objGet p "name"))) = true
      · have h3p : (objGet p "input").isSome = true ∧ optTruthy (objGet p "name") = false := by
          simpa [Bool.and_eq_true, Bool.not_eq_true'] using h3
        obtain ⟨v, hi⟩ := Option.isSome_iff_exists.mp h3p.1
        simp [h3, hi, eventKind, h1p, h2p, h3p.2]
      · have h3p : ¬((objGet p "input").isSome = true ∧ optTruthy (objGet p "name") = false) := by
          intro hcontr
          exact h3 (by simp [Bool.and_eq_true, Bool.not_eq_true', hcontr.1, hcontr.2])
        simp only [h3, if_false, Bool.false_eq_true]
        by_cases h4 : (objGet p "stop").isSome = true
        · obtain ⟨v, hs⟩ := Option.isSome_iff_exists.mp h4
          simp [h4, hs, eventKind, h1p, h2p, h3p]
        · simp [h4, h1p, h2p, h3p]

theorem classify_cases_witness :
    ((classifyKiroEvent (JValue.obj [("followupPrompt", .str "x"), ("stop", .bool true)])).map
      eventKind = some 3) :=
  (classify_cases (JValue.obj [("followupPrompt", .str "x"), ("stop", .bool true)])).2.2.2.mpr
    (by refine ⟨?_, ?_, ?_, ?_⟩ <;> decide)

end AIClient2API.Kiro

namespace AIClient2API.Tool

open AIClient2API.Json
open AIClient2API.Kiro

theorem indexOfAux_some (needle : List Char) :
    ∀ (cs : List Char) (i j : Nat), indexOfAux needle cs i = some j →
      i ≤ j ∧ needle.isPrefixOf (cs.drop (j - i)) = true
        ∧ ∀ d, d < j - i → needle.isPrefixOf (cs.drop d) = false := by
  intro cs
  induction cs with
  | nil =>
    intro i j h
    unfold indexOfAux at h
    split at h
    next hemp =>
      cases h
      have hn : needle = [] := List.isEmpty_iff.mp hemp
      subst hn
      exact ⟨le_refl _, by rw [List.drop_nil]; rfl, fun d hd => absurd hd (by omega)⟩
    next => cases h
  | cons c rest ih =>
    intro i j h
    unfold indexOfAux at h
    split at h
    next hpre =>
      cases h
      refine ⟨le_refl _, by simpa using hpre, fun d hd => absurd hd (by omega)⟩
    next hpre =>
      obtain ⟨h1, h2, h3⟩ := ih (i + 1) j h
      refine ⟨by omega, ?_, ?_⟩
      · rw [show j - i = (j - (i + 1)) + 1 by omega]
        simpa using h2
      · intro d hd
        cases d with
        | zero => simpa using Bool.eq_false_iff.mpr hpre
        | succ e =>
          have := h3 e (by omega)
          simpa using this

theorem indexOfAux_none (needle : List Char) (hne : needle ≠ []) :
    ∀ (cs : List Char) (i : Nat), indexOfAux needle cs i = none →
      ∀ d, needle.isPrefixOf (cs.drop d) = false := by
  intro cs
  induction cs with
  | nil =>
    intro i _ d
    rw [List.drop_nil]
    cases needle with
    | nil => exact absurd rfl hne
    | cons a as => rfl
  | cons c rest ih =>
    intro i h d
    unfold indexOfAux at h
    split at h
    · cases h
    next hpre =>
      cases d with
      | zero => simpa using Bool.eq_false_iff.mpr hpre
      | succ e => simpa using ih (i + 1) h e

theorem indexOfFrom_some (hay needle : List Char) (start j : Nat)
    (h : indexOfFrom hay needle start = some j) :
    start ≤ j ∧ needle.isPrefixOf (hay.drop j) = true
      ∧ ∀ q, start ≤ q → q < j → needle.isPrefixOf (hay.drop q) = false := by
  obtain ⟨h1, h2, h3⟩ := indexOfAux_some needle (hay.drop start) start j h
  refine ⟨h1, ?_, ?_⟩
  · rw [List.drop_drop, show start + (j - start) = j by omega] at h2
    exact h2
  · intro q hq1 hq2
    have := h3 (q - start) (by omega)
    rwa [List.drop_drop, show start + (q - start) = q by omega] at this

theorem indexOfFrom_none (hay needle : List Char) (hne : needle ≠ []) (start : Nat)
    (h : indexOfFrom hay needle start = none) :
    ∀ q, start ≤ q → needle.isPrefixOf (hay.drop q) = false := by
  intro q hq
  have := indexOfAux_none needle hne (hay.drop start) start h (q - start)
  rwa [List.drop_drop, show start + (q - start) = q by omega] at this

theorem occursCalled_lt (text : List Char) (q : Nat) (h : OccursCalled text q) :
    q < text.length := by
  by_contra hge
  push_neg at hge
  unfold OccursCalled at h
  rw [List.drop_eq_nil_of_le hge] at h
  exact absurd h (by decide)

end AIClient2API.Tool

namespace AIClient2API.Tool

open AIClient2API.Json
open AIClient2API.Kiro

theorem collectAux_sound (text : List Char) :
    ∀ fuel start, ∀ q ∈ collectAux text fuel start, OccursCalled text q ∧ start ≤ q := by
  intro fuel
  induction fuel with
  | zero => intro start q hq; cases hq
  | succ f ih =>
    intro start q hq
    unfold collectAux at hq
    cases hidx : indexOfFrom text calledNeedle start with
    | none => rw [hidx] at hq; cases hq
    | some pos =>
      rw [hidx] at hq
      obtain ⟨h1, h2, _⟩ := indexOfFrom_some _ _ _ _ hidx
      rcases List.mem_cons.mp hq with rfl | hq2
      · exact ⟨h2, h1⟩
      · obtain ⟨ho, hs⟩ := ih (pos + 1) q hq2
        exact ⟨ho, by omega⟩

theorem collectAux_chain (text : List Char) :
    ∀ fuel start, List.Chain' (· < ·) (collectAux text fuel start) := by
  intro fuel
  induction fuel with
  | zero => intro start; exact List.chain'_nil
  | succ f ih =>
    intro start
    unfold collectAux
    cases hidx : indexOfFrom text calledNeedle start with
    | none => exact List.chain'_nil
    | some pos =>
      refine List.chain'_cons'.mpr ⟨?_, ih (pos + 1)⟩
      intro y hy
      have := (collectAux_sound text f (pos + 1) y (List.mem_of_mem_head? hy)).2
      omega

theorem collectAux_complete (text : List Char) :
    ∀ fuel start p, OccursCalled text p → start ≤ p → text.length + 1 ≤ fuel + start →
      p ∈ collectAux text fuel start := by
  intro fuel
  induction fuel with
  | zero =>
    intro start p hocc hsp hfuel
    have := occursCalled_lt text p hocc
    omega
  | succ f ih =>
    intro start p hocc hsp hfuel
    unfold collectAux
    cases hidx : indexOfFrom text calledNeedle start with
    | none =>
      have hfalse := indexOfFrom_none text calledNeedle (by decide) start hidx p hsp
      unfold OccursCalled at hocc
      rw [hocc] at hfalse
      cases hfalse
    | some pos =>
      obtain ⟨h1, _, h3⟩ := indexOfFrom_some _ _ _ _ hidx
      by_cases hpq : pos = p
      · subst hpq
        exact List.mem_cons_self _ _
      · have hlt : pos < p := by
          rcases Nat.lt_or_ge p pos with hc | hc
          · have := h3 p hsp hc
            unfold OccursCalled at hocc
            rw [hocc] at this
            cases this
          · omega
        exact List.mem_cons_of_mem _ (ih (pos + 1) p hocc (by omega) (by omega))

theorem isPrefixOf_cons_false (a : Char) (as : List Char) (b : Char) (bs : List Char)
    (h : a ≠ b) : (a :: as).isPrefixOf (b :: bs) = false := by
  rw [Bool.eq_false_iff, Ne, List.isPrefixOf_iff_prefix]
  intro hpre
  exact h (List.cons_prefix_cons.mp hpre).1

theorem seg_no_inner_called (d : Nat) (h1 : 1 ≤ d) (h2 : d ≤ 38) (tail : List Char) :
    calledNeedle.isPrefixOf ((segToolCall ++ tail).drop d) = false := by
  have hd39 : d ≤ segToolCall.length := by
    rw [show segToolCall.length = 39 from rfl]
    omega
  rw [List.drop_append_of_le_length hd39]
  have hdlt : d < segToolCall.length := by
    rw [show segToolCall.length = 39 from rfl]
    omega
  rw [← List.getElem_cons_drop segToolCall d hdlt, List.cons_append]
  have hall : ∀ i, (hi : i < 39) → 1 ≤ i → segToolCall[i] ≠ '[' := by decide
  have hne : '[' ≠ segToolCall[d] := by
    intro heq
    exact hall d (by rw [show (39 : Nat) = segToolCall.length from rfl]; exact hdlt) h1 heq.symm
  calc calledNeedle.isPrefixOf (segToolCall[d] :: (segToolCall.drop (d + 1) ++ tail))
      = ('[' :: "Called".toList).isPrefixOf (segToolCall[d] :: (segToolCall.drop (d + 1) ++ tail)) := rfl
    _ = false := isPrefixOf_cons_false _ _ _ _ hne

end AIClient2API.Tool

namespace AIClient2API.Tool

open AIClient2API.Json
open AIClient2API.Kiro

theorem findBracket_seg (tail : List Char) :
    findMatchingBracket (segToolCall ++ tail) 0 = some 38 := rfl

theorem parseSingle_seg (idStr : String) :
    parseSingleToolCall idStr segToolCall =
      some ⟨"call_" ++ idStr, "function", ⟨"get_time", "\x7b\"tz\":\"UTC\"\x7d"⟩⟩ := rfl

theorem take39_seg (tail : List Char) : (segToolCall ++ tail).take 39 = segToolCall := by
  rw [show (39 : Nat) = segToolCall.length from rfl]
  exact List.take_left _ _

theorem processOne_seg (text : List Char) (p lim : Nat) (idStr : String) (post0 : List Char)
    (htext : text.drop p = segToolCall ++ post0) (hlim : p + 39 ≤ lim) :
    processOne text p lim idStr =
      some ⟨"call_" ++ idStr, "function", ⟨"get_time", "\x7b\"tz\":\"UTC\"\x7d"⟩⟩ := by
  have hseg : (text.take lim).drop p = segToolCall ++ post0.take (lim - p - 39) := by
    obtain ⟨n, hn⟩ : ∃ n, lim - p - 39 = n := ⟨_, rfl⟩
    rw [hn, List.drop_take, htext]
    rw [show lim - p = segToolCall.length + n by
      rw [show segToolCall.length = 39 from rfl]; omega]
    rw [List.take_append]
  simp only [processOne, hseg, findBracket_seg]
  rw [show (38 : Nat) + 1 = 39 from rfl, take39_seg]
  exact parseSingle_seg idStr

theorem processPositions_mem (text : List Char) (ids : Nat → String) (p : Nat) (post0 : List Char)
    (htext : text.drop p = segToolCall ++ post0) (hplen : p + 39 ≤ text.length) :
    ∀ (l : List Nat) (k : Nat), p ∈ l →
      (∀ q ∈ l, OccursCalled text q) →
      List.Chain' (· < ·) l →
      ∃ c ∈ processPositions text ids k l,
        c.function.name = "get_time" ∧ c.function.arguments = "\x7b\"tz\":\"UTC\"\x7d" := by
  intro l
  induction l with
  | nil => intro k hp _ _; cases hp
  | cons p0 rest ih =>
    intro k hp hocc hchain
    by_cases hp0 : p0 = p
    · subst hp0
      have hlim : p0 + 39 ≤ segLimit text rest := by
        cases rest with
        | nil => simpa [segLimit] using hplen
        | cons q rest2 =>
          have hq_occ : OccursCalled text q :=
            hocc q (List.mem_cons_of_mem _ (List.mem_cons_self _ _))
          have hpq : p0 < q := (List.chain'_cons.mp hchain).1
          simp only [segLimit]
          by_contra hlt
          push_neg at hlt
          have hmid := seg_no_inner_called (q - p0) (by omega) (by omega) post0
          unfold OccursCalled at hq_occ
          rw [show text.drop q = (segToolCall ++ post0).drop (q - p0) by
            rw [← htext, List.drop_drop, show p0 + (q - p0) = q by omega]] at hq_occ
          rw [hq_occ] at hmid
          cases hmid
      have hstep := processOne_seg text p0 (segLimit text rest) (ids k) post0 htext hlim
      refine ⟨⟨"call_" ++ ids k, "function", ⟨"get_time", "\x7b\"tz\":\"UTC\"\x7d"⟩⟩, ?_, rfl, rfl⟩
      simp only [processPositions, hstep]
      exact List.mem_cons_self _ _
    · have hp2 : p ∈ rest := by
        rcases List.mem_cons.mp hp with h | h
        · exact absurd h.symm hp0
        · exact h
      have hocc2 : ∀ q ∈ rest, OccursCalled text q := fun q hq => hocc q (List.mem_cons_of_mem _ hq)
      have hchain2 : List.Chain' (· < ·) rest := (List.chain'_cons'.mp hchain).2
      cases hpo : processOne text p0 (segLimit text rest) (ids k) with
      | some call =>
        obtain ⟨c, hc, hprops⟩ := ih (k + 1) hp2 hocc2 hchain2
        refine ⟨c, ?_, hprops⟩
        simp only [processPositions, hpo]
        exact List.mem_cons_of_mem _ hc
      | none =>
        obtain ⟨c, hc, hprops⟩ := ih k hp2 hocc2 hchain2
        refine ⟨c, ?_, hprops⟩
        simp only [processPositions, hpo]
        exact hc

/-- C7: Bracket tool-call recovery with JSON repair.  Any text containing the
segment `[Called get_time with args: {tz: UTC,}]` makes `parseBracketToolCalls`
return a tool-call list containing a call with `function.name = "get_time"`
whose `function.arguments` is exactly `{"tz":"UTC"}` (trailing comma removed,
unquoted key and bareword value quoted), parsing back to the object
`{tz ↦ "UTC"}`.  `ids` supplies the `uuidv4()`-derived id suffixes. -/
theorem bracket_recovery (pre post : String) (ids : Nat → String) :
    ∃ calls, parseBracketToolCalls (pre.toList ++ (segToolCall ++ post.toList)) ids = some calls
      ∧ ∃ c ∈ calls, c.function.name = "get_time"
          ∧ c.function.arguments = "\x7b\"tz\":\"UTC\"\x7d"
          ∧ jsonParseStr c.function.arguments = some (.obj [("tz", .str "UTC")]) := by
  have hocc : OccursCalled (pre.toList ++ (segToolCall ++ post.toList)) pre.toList.length := by
    unfold OccursCalled
    rw [List.drop_left]
    rfl
  have hplen : pre.toList.length + 39 ≤ (pre.toList ++ (segToolCall ++ post.toList)).length := by
    simp only [List.length_append, show segToolCall.length = 39 from rfl]
    omega
  have hmem : pre.toList.length ∈ callPositions (pre.toList ++ (segToolCall ++ post.toList)) := by
    unfold callPositions
    exact collectAux_complete _ _ 0 _ hocc (Nat.zero_le _) (by omega)
  have hsound : ∀ q ∈ callPositions (pre.toList ++ (segToolCall ++ post.toList)),
      OccursCalled (pre.toList ++ (segToolCall ++ post.toList)) q :=
    fun q hq => (collectAux_sound _ _ 0 q hq).1
  have hchain : List.Chain' (· < ·) (callPositions (pre.toList ++ (segToolCall ++ post.toList))) :=
    collectAux_chain _ _ 0
  obtain ⟨c, hc, hname, hargs⟩ :=
    processPositions_mem (pre.toList ++ (segToolCall ++ post.toList)) ids
      pre.toList.length post.toList (List.drop_left _ _) hplen
      (callPositions (pre.toList ++ (segToolCall ++ post.toList))) 0 hmem hsound hchain
  have hinc : (indexOfFrom (pre.toList ++ (segToolCall ++ post.toList)) calledNeedle 0).isSome
      = true := by
    cases hidx : indexOfFrom (pre.toList ++ (segToolCall ++ post.toList)) calledNeedle 0 with
    | some _ => rfl
    | none =>
      have hfalse := indexOfFrom_none _ _ (by decide) 0 hidx pre.toList.length (Nat.zero_le _)
      unfold OccursCalled at hocc
      rw [hocc] at hfalse
      cases hfalse
  have hne2 : (processPositions (pre.toList ++ (segToolCall ++ post.toList)) ids 0
      (callPositions (pre.toList ++ (segToolCall ++ post.toList)))).isEmpty = false := by
    cases hl : processPositions (pre.toList ++ (segToolCall ++ post.toList)) ids 0
        (callPositions (pre.toList ++ (segToolCall ++ post.toList))) with
    | nil => rw [hl] at hc; cases hc
    | cons a as => rfl
  refine ⟨processPositions (pre.toList ++ (segToolCall ++ post.toList)) ids 0
    (callPositions (pre.toList ++ (segToolCall ++ post.toList))), ?_, c, hc, hname, hargs, ?_⟩
  · simp only [parseBracketToolCalls, hinc, if_true, hne2, Bool.false_eq_true, if_false]
  · rw [hargs]
    rfl

end AIClient2API.Tool

namespace AIClient2API.Builder

open AIClient2API.Json

/-- C4 as stated is false: with system `"S"` and the single user message
`"U"`, the builder folds the system prompt into a history entry and reuses the
same user message as `currentMessage`, so the emitted history has length 2
(not 0) and the current content is `"U"` (not `"S\n\nU"`). -/
theorem system_injection_counterexample :
    ((buildCodewhispererRequest "cid" [⟨"user", .str "U"⟩] "m" (fun _ => none) none
        (some (.inl "S")) none none).map
      fun r => ((r.history.getD []).length, r.currentMessage.content))
      = some (2, "U")
    ∧ (2 : Nat) ≠ 0 ∧ "U" ≠ "S" ++ "\n\n" ++ "U" :=
  ⟨rfl, by decide, by decide⟩

/-- C4 amended: for a non-empty system string and exactly one non-empty user
message, the envelope's history has length 2 — `history[0]` is a
`userInputMessage` whose content is the system text, `"\n\n"`, then the user
text, and `history[1]` is a synthetic `assistantResponseMessage` with content
`"Continue"` — while `currentMessage.userInputMessage.content` is the user
text alone. -/
theorem system_injection_single_user (cid sys usr model : String)
    (mm : String → Option String) (am arn : Option String)
    (hs : sys.isEmpty = false) (hu : usr.isEmpty = false) :
    ∃ r, buildCodewhispererRequest cid [⟨"user", .str usr⟩] model mm none
        (some (.inl sys)) am arn = some r
      ∧ r.history = some
          [.user
              { content := sys ++ "\n\n" ++ usr
                modelId :=
                  match mm model with
                  | some m => some m
                  | none => mm "claude-opus-4-5"
                origin := "AI_EDITOR"
                images := none
                context := none },
            .assistant { content := "Continue", toolUses := none }]
      ∧ r.currentMessage.content = usr := by
  refine ⟨_, rfl, ?_, ?_⟩
  · simp [buildCodewhispererRequest, mergeMessages, getContentTextOfSystem,
      getContentTextOfMessage, buildHistoryItems, hs, hu]
  · simp [buildCodewhispererRequest, mergeMessages, getContentTextOfSystem,
      getContentTextOfMessage, buildHistoryItems, hs, hu]

theorem system_injection_single_user_witness :
    ("Spt".isEmpty = false ∧ "Upt".isEmpty = false)
    ∧ ∃ r, buildCodewhispererRequest "cid" [⟨"user", .str "Upt"⟩] "m" (fun _ => none) none
        (some (.inl "Spt")) none none = some r
      ∧ r.history = some
          [.user
              { content := "Spt" ++ "\n\n" ++ "Upt"
                modelId := none
                origin := "AI_EDITOR"
                images := none
                context := none },
            .assistant { content := "Continue", toolUses := none }]
      ∧ r.currentMessage.content = "Upt" :=
  ⟨⟨by decide, by decide⟩,
    system_injection_single_user "cid" "Spt" "Upt" "m" (fun _ => none) none none
      (by decide) (by decide)⟩

end AIClient2API.Builder

namespace AIClient2API.Auth

/-- C6 as stated is false: a 2xx refresh response carrying `accessToken` but
no `expiresIn` does not complete — `new Date(Date.now() + undefined * 1000)
.toISOString()` throws, so the refresh raises `Token refresh failed: Invalid
time value` (after the in-memory tokens were already overwritten), rather than
completing with the previous expiry. -/
theorem refresh_missing_expiresIn_counterexample :
    (applyRefreshResponse
        ⟨some "oldA", some "oldR", none, none, some "social", some "arn", some 99⟩
        1000
        (some ⟨some "newA", some "newR", some "arn2", none⟩)).2
      = some "Token refresh failed: Invalid time value" := rfl

/-- C6 amended: when the refresh response carries a truthy `accessToken` but
no `expiresIn`, the refresh throws `Token refresh failed: Invalid time value`;
before the throw the in-memory `accessToken`, `refreshToken` and `profileArn`
have already been overwritten with the response values, while `expiresAt`
(and every other field) retains its previous value, and the credentials file
is not updated. -/
theorem refresh_missing_expiresIn (st : AuthState) (now : Int) (d : RefreshResponseData)
    (tok : String) (htok : d.accessToken = some tok) (hne : tok.isEmpty = false)
    (hexp : d.expiresIn = none) :
    applyRefreshResponse st now (some d)
      = ({ st with
            accessToken := some tok
            refreshToken := d.refreshToken
            profileArn := d.profileArn },
          some "Token refresh failed: Invalid time value")
      ∧ (applyRefreshResponse st now (some d)).1.expiresAt = st.expiresAt
      ∧ (applyRefreshResponse st now (some d)).2.isSome = true := by
  have hmain : applyRefreshResponse st now (some d)
      = ({ st with
            accessToken := some tok
            refreshToken := d.refreshToken
            profileArn := d.profileArn },
          some "Token refresh failed: Invalid time value") := by
    simp only [applyRefreshResponse, htok, hne, Bool.false_eq_true, if_false, hexp]
  exact ⟨hmain, by rw [hmain], by rw [hmain]; rfl⟩

theorem refresh_missing_expiresIn_witness :
    ((some "newA" : Option String) = some "newA" ∧ "newA".isEmpty = false
      ∧ (none : Option Int) = none)
    ∧ applyRefreshResponse
        ⟨some "oldA", some "oldR", none, none, some "social", some "arn", some 99⟩
        1000 (some ⟨some "newA", some "newR", some "arn2", none⟩)
      = (⟨some "newA", some "newR", none, none, some "social", some "arn2", some 99⟩,
          some "Token refresh failed: Invalid time value") :=
  ⟨⟨rfl, by decide, rfl⟩,
    (refresh_missing_expiresIn
      ⟨some "oldA", some "oldR", none, none, some "social", some "arn", some 99⟩
      1000 ⟨some "newA", some "newR", some "arn2", none⟩ "newA" rfl (by decide) rfl).1⟩

end AIClient2API.Auth
